import Mathlib

/-!
Verification of the AutoPrompt trigger-search code
(`autoprompt/create_trigger.py`, `utils.py`, `autoprompt/metrics.py`).

Python functions are shallowly embedded as Lean functions: tensors become
(nested) lists over `ℚ`/`ℤ`/`Bool` (or `ℝ` where the code applies `exp`/`log`),
Python dictionaries become association lists, and the pretrained language model
is an abstract function parameter, matching the spec's view of it as an opaque
capability (a forward pass returning per-position logits, an embedding table,
and a gradient hook on that table).
-/

namespace AutoPrompt

/-! ### Generic list helpers (embedding of tensor reshapes) -/

/-- Fuel-driven worker for `chunkExact`; the fuel bounds the number of chunks
produced, keeping the recursion structural (and kernel-reducible). -/
def chunkExactAux {α : Type} : ℕ → ℕ → List α → List (List α)
  | 0, _, _ => []
  | fuel + 1, n, l =>
    if n = 0 ∨ l.length = 0 then []
    else l.take n :: chunkExactAux fuel n (l.drop n)

/-- Split a list into consecutive chunks of `n` elements: the embedding of a
`Tensor.view` on a flat tensor.  For `n = 0` the result is empty. -/
def chunkExact {α : Type} (n : ℕ) (l : List α) : List (List α) :=
  chunkExactAux l.length n l

theorem chunkExact_nil {α : Type} (n : ℕ) : chunkExact (α := α) n [] = [] := by
  rfl

theorem chunkExactAux_flatten {α : Type} (n : ℕ) (hn : 0 < n) :
    ∀ (L : List (List α)) (fuel : ℕ), L.flatten.length ≤ fuel →
      (∀ l ∈ L, l.length = n) → chunkExactAux fuel n L.flatten = L
  | [], fuel, _, _ => by
    cases fuel with
    | zero => rfl
    | succ f =>
      rw [chunkExactAux, if_pos]
      simp
  | l :: L, fuel, hfuel, hL => by
    have hl : l.length = n := hL l (by simp)
    cases fuel with
    | zero =>
      exfalso
      simp only [List.flatten_cons, List.length_append, Nat.le_zero] at hfuel
      omega
    | succ f =>
      have hrec := chunkExactAux_flatten n hn L f
        (by simp only [List.flatten_cons, List.length_append] at hfuel; omega)
        (fun x hx => hL x (by simp [hx]))
      rw [chunkExactAux, if_neg]
      · simp only [List.flatten_cons]
        rw [← hl, List.take_left, List.drop_left, hl, hrec]
      · push_neg
        refine ⟨by omega, ?_⟩
        simp only [List.flatten_cons, List.length_append]
        omega

/-- Reshaping the concatenation of equal-length chunks recovers the chunks:
correctness of `view` after a row-major flattening. -/
theorem chunkExact_flatten {α : Type} (n : ℕ) (hn : 0 < n)
    (L : List (List α)) (hL : ∀ l ∈ L, l.length = n) :
    chunkExact n L.flatten = L :=
  chunkExactAux_flatten n hn L L.flatten.length le_rfl hL

/-! ### `utils.iterate_batches` (claim C9)

`iterate_batches(inputs, batch_size, shuffle=False)` walks
`range(0, size, batch_size)` and yields the slice
`inputs[start_idx : min(start_idx + batch_size, size)]`.  Only the
`shuffle=False` path is embedded; the `shuffle=True` path draws a random
permutation from numpy's global generator (external randomness). -/

/-- The generator state of `iterate_batches` mid-iteration: the batches still
to be yielded starting from index `start`. -/
def iterateBatchesFrom {α : Type} (inputs : List α) (batch_size start : ℕ) :
    List (List α) :=
  if _h : 0 < batch_size ∧ start < inputs.length then
    (inputs.drop start).take batch_size ::
      iterateBatchesFrom inputs batch_size (start + batch_size)
  else []
termination_by inputs.length - start
decreasing_by omega

/-- `utils.iterate_batches` with `shuffle=False`. -/
def iterate_batches {α : Type} (inputs : List α) (batch_size : ℕ) :
    List (List α) :=
  iterateBatchesFrom inputs batch_size 0

theorem iterateBatchesFrom_flatten {α : Type} (inputs : List α) (b : ℕ)
    (hb : 0 < b) (s : ℕ) :
    (iterateBatchesFrom inputs b s).flatten = inputs.drop s := by
  by_cases h : s < inputs.length
  · have hrec := iterateBatchesFrom_flatten inputs b hb (s + b)
    rw [iterateBatchesFrom, dif_pos ⟨hb, h⟩]
    simp only [List.flatten_cons]
    rw [hrec, ← List.drop_drop, List.take_append_drop]
  · rw [iterateBatchesFrom, dif_neg (by tauto)]
    rw [List.drop_eq_nil_of_le (by omega)]
    rfl
termination_by inputs.length - s
decreasing_by omega

theorem iterateBatchesFrom_full {α : Type} (inputs : List α) (b : ℕ)
    (hb : 0 < b) (s i : ℕ)
    (h : i + 1 < (iterateBatchesFrom inputs b s).length) :
    ((iterateBatchesFrom inputs b s).getD i []).length = b := by
  by_cases hs : s < inputs.length
  · rw [iterateBatchesFrom, dif_pos ⟨hb, hs⟩] at h ⊢
    match i with
    | 0 =>
      simp only [List.getD_cons_zero, List.length_take, List.length_drop]
      simp only [List.length_cons] at h
      have h2 : iterateBatchesFrom inputs b (s + b) ≠ [] := by
        intro hz
        rw [hz] at h
        simp at h
      have h3 : s + b < inputs.length := by
        by_contra hc
        rw [iterateBatchesFrom, dif_neg (by tauto)] at h2
        exact h2 rfl
      omega
    | i + 1 =>
      simp only [List.getD_cons_succ]
      have h2 : i + 1 < (iterateBatchesFrom inputs b (s + b)).length := by
        simp only [List.length_cons] at h
        omega
      exact iterateBatchesFrom_full inputs b hb (s + b) i h2
  · rw [iterateBatchesFrom, dif_neg (by tauto)] at h
    simp at h
termination_by inputs.length - s
decreasing_by omega

theorem iterateBatchesFrom_mem {α : Type} (inputs : List α) (b : ℕ)
    (hb : 0 < b) (s : ℕ) (btch : List α)
    (h : btch ∈ iterateBatchesFrom inputs b s) :
    0 < btch.length ∧ btch.length ≤ b := by
  by_cases hs : s < inputs.length
  · rw [iterateBatchesFrom, dif_pos ⟨hb, hs⟩, List.mem_cons] at h
    rcases h with h | h
    · constructor
      · rw [h]
        simp only [List.length_take, List.length_drop]
        omega
      · rw [h]
        simp only [List.length_take]
        omega
    · exact iterateBatchesFrom_mem inputs b hb (s + b) btch h
  · rw [iterateBatchesFrom, dif_neg (by tauto)] at h
    simp at h
termination_by inputs.length - s
decreasing_by omega

/-- C9: with `shuffle=False` and a positive batch size, `iterate_batches`
yields batches whose in-order concatenation is the input; every batch except
possibly the last has exactly `batch_size` elements, every batch is nonempty of
size at most `batch_size` (so the last holds exactly the remainder), and an
empty input yields no batches. -/
theorem iterate_batches_spec {α : Type} (inputs : List α) (batch_size : ℕ)
    (hb : 0 < batch_size) :
    (iterate_batches inputs batch_size).flatten = inputs ∧
    (∀ i, i + 1 < (iterate_batches inputs batch_size).length →
      ((iterate_batches inputs batch_size).getD i []).length = batch_size) ∧
    (∀ btch ∈ iterate_batches inputs batch_size,
      0 < btch.length ∧ btch.length ≤ batch_size) ∧
    (inputs = [] → iterate_batches inputs batch_size = []) := by
  refine ⟨by simpa using iterateBatchesFrom_flatten inputs batch_size hb 0,
    fun i hi => iterateBatchesFrom_full inputs batch_size hb 0 i hi,
    fun btch hB => iterateBatchesFrom_mem inputs batch_size hb 0 btch hB,
    fun h => ?_⟩
  rw [iterate_batches, iterateBatchesFrom, dif_neg]
  rw [h]
  simp

theorem iterate_batches_spec_witness :
    (0 : ℕ) < 2 ∧
    ((iterate_batches [1, 2, 3, 4, 5] 2).flatten = [1, 2, 3, 4, 5] ∧
      (∀ i, i + 1 < (iterate_batches [1, 2, 3, 4, 5] 2).length →
        ((iterate_batches [1, 2, 3, 4, 5] 2).getD i []).length = 2) ∧
      (∀ btch ∈ iterate_batches [1, 2, 3, 4, 5] 2,
        0 < btch.length ∧ btch.length ≤ 2) ∧
      (([1, 2, 3, 4, 5] : List ℕ) = [] → iterate_batches [1, 2, 3, 4, 5] 2 = [])) :=
  ⟨by decide, iterate_batches_spec [1, 2, 3, 4, 5] 2 (by decide)⟩

/-! ### Trigger initialisation and updates (claim C6)

`run_model` initialises `trigger_ids` either from `args.initial_trigger`
(asserting its length equals `templatizer.num_trigger_tokens`) or as
`[tokenizer.mask_token_id] * templatizer.num_trigger_tokens`; afterwards the
only write to it is `trigger_ids[:, token_to_flip] = candidates[idx]`. -/

/-- Embedding of the trigger initialisation in `run_model`.  `none` models the
`assert len(trigger_ids) == templatizer.num_trigger_tokens` failing. -/
def initTrigger (initial : Option (List ℤ)) (maskTokenId : ℤ)
    (numTriggerTokens : ℕ) : Option (List ℤ) :=
  match initial with
  | some t => if t.length = numTriggerTokens then some t else none
  | none => some (List.replicate numTriggerTokens maskTokenId)

/-- A single trigger update `trigger_ids[:, token_to_flip] = candidate`,
as performed at the end of a search iteration. -/
def flipTriggerToken (trigger : List ℤ) (token_to_flip : ℕ) (candidate : ℤ) :
    List ℤ :=
  trigger.set token_to_flip candidate

/-- Any sequence of single-position trigger updates, folded over the search
iterations that modify the trigger. -/
def applyFlips (trigger : List ℤ) (flips : List (ℕ × ℤ)) : List ℤ :=
  flips.foldl (fun t f => flipTriggerToken t f.1 f.2) trigger

theorem applyFlips_length (flips : List (ℕ × ℤ)) :
    ∀ trigger : List ℤ, (applyFlips trigger flips).length = trigger.length := by
  induction flips with
  | nil => intro trigger; rfl
  | cons f fs ih =>
    intro trigger
    rw [applyFlips, List.foldl_cons, ← applyFlips, ih]
    simp [flipTriggerToken]

/-- C6: the trigger always holds exactly `num_trigger_tokens` ids.  Successful
initialisation produces a trigger of length `numTriggerTokens` (the
user-supplied trigger is accepted only when its length matches, and the default
repeats the mask token id `numTriggerTokens` times), and every later update
rewrites a single position, so after any sequence of updates the length is
still `numTriggerTokens`. -/
theorem trigger_length_invariant (initial : Option (List ℤ)) (maskTokenId : ℤ)
    (numTriggerTokens : ℕ) (trigger : List ℤ) (flips : List (ℕ × ℤ))
    (h : initTrigger initial maskTokenId numTriggerTokens = some trigger) :
    trigger.length = numTriggerTokens ∧
    (applyFlips trigger flips).length = numTriggerTokens := by
  have hlen : trigger.length = numTriggerTokens := by
    match initial with
    | some t =>
      rw [initTrigger] at h
      by_cases ht : t.length = numTriggerTokens
      · rw [if_pos ht] at h
        cases h
        exact ht
      · rw [if_neg ht] at h
        cases h
    | none =>
      rw [initTrigger] at h
      cases h
      exact List.length_replicate numTriggerTokens maskTokenId
  exact ⟨hlen, by rw [applyFlips_length flips trigger, hlen]⟩

theorem trigger_length_invariant_witness :
    initTrigger (some [11, 22, 33]) 103 3 = some [11, 22, 33] ∧
    (([11, 22, 33] : List ℤ).length = 3 ∧
      (applyFlips [11, 22, 33] [(1, 44), (0, 55)]).length = 3) :=
  ⟨by decide,
    trigger_length_invariant (some [11, 22, 33]) 103 3 [11, 22, 33]
      [(1, 44), (0, 55)] (by decide)⟩

/-! ### Tensors and model-input dictionaries

The `model_inputs` dictionaries produced by the templatizer hold 2-D tensors
(`input_ids` and the boolean `trigger_mask` / `predict_mask` /
`last_trigger_mask`), embedded as an association list from keys to tensor
values. -/

/-- A (2-D) PyTorch tensor value as it appears in a `model_inputs` dict. -/
inductive Tensor where
  | ints : List (List ℤ) → Tensor
  | bools : List (List Bool) → Tensor
  | rats : List (List ℚ) → Tensor
deriving DecidableEq

/-- A Python dict of named tensors. -/
def Dict : Type := List (String × Tensor)

instance : DecidableEq Dict := by
  unfold Dict
  infer_instance

/-- Python `d[k]` (as an `Option`, `none` modelling `KeyError`). -/
def dictGet : Dict → String → Option Tensor
  | [], _ => none
  | (k', v') :: rest, k => if k' = k then some v' else dictGet rest k

/-- Python `d[k] = v` on a dict with unique keys: replace the value in place,
appending when the key is absent. -/
def dictSet : Dict → String → Tensor → Dict
  | [], k, v => [(k, v)]
  | (k', v') :: rest, k, v =>
    if k' = k then (k, v) :: rest else (k', v') :: dictSet rest k v

/-- Python `d.pop(k)`: the dict with the (unique) binding of `k` removed. -/
def dictRemove : Dict → String → Dict
  | [], _ => []
  | (k', v') :: rest, k => if k' = k then rest else (k', v') :: dictRemove rest k

theorem dictSet_get_self (d : Dict) (k : String) (v : Tensor) :
    dictGet (dictSet d k v) k = some v := by
  induction d with
  | nil => simp [dictSet, dictGet]
  | cons p rest ih =>
    obtain ⟨k', v'⟩ := p
    rw [dictSet]
    by_cases h : k' = k
    · rw [if_pos h, dictGet, if_pos rfl]
    · rw [if_neg h, dictGet, if_neg h]
      exact ih

theorem dictSet_get_other (d : Dict) (k k' : String) (v : Tensor)
    (h : k ≠ k') : dictGet (dictSet d k v) k' = dictGet d k' := by
  induction d with
  | nil => simp [dictSet, dictGet, h]
  | cons p rest ih =>
    obtain ⟨k'', v''⟩ := p
    rw [dictSet]
    by_cases h2 : k'' = k
    · rw [if_pos h2, dictGet, if_neg h, dictGet, h2, if_neg h]
    · rw [if_neg h2, dictGet, dictGet]
      by_cases h3 : k'' = k'
      · rw [if_pos h3, if_pos h3]
      · rw [if_neg h3, if_neg h3]
        exact ih

/-! ### `masked_scatter` and `replace_trigger_tokens` (claim C3)

`replace_trigger_tokens(model_inputs, trigger_ids, trigger_mask)` copies the
dict and sets `out['input_ids'] = input_ids.masked_scatter(trigger_mask,
trigger_ids.repeat(trigger_mask.size(0), 1))`, falling back to the original
`input_ids` when `masked_scatter` raises a `RuntimeError` (mask shape not
matching `input_ids`, or more `True` mask entries than source elements). -/

/-- One row of `masked_scatter`: fill the `True` positions of `row` with the
leading elements of `src`, returning the filled row and the unconsumed rest of
`src`. -/
def scatterRow : List ℤ → List Bool → List ℤ → List ℤ × List ℤ
  | [], _, src => ([], src)
  | x :: xs, [], src => (x :: xs, src)
  | x :: xs, m :: ms, src =>
    if m then
      (src.headD 0 :: (scatterRow xs ms src.tail).1, (scatterRow xs ms src.tail).2)
    else
      (x :: (scatterRow xs ms src).1, (scatterRow xs ms src).2)

/-- Row-major `masked_scatter` on a 2-D tensor: the flat source is consumed
row by row. -/
def scatterRows : List (List ℤ) → List (List Bool) → List ℤ → List (List ℤ)
  | [], _, _ => []
  | r :: rs, [], _ => r :: rs
  | r :: rs, m :: ms, src =>
    (scatterRow r m src).1 :: scatterRows rs ms (scatterRow r m src).2

/-- Total number of `True` entries of a 2-D boolean mask. -/
def countTrues (mask : List (List Bool)) : ℕ :=
  (mask.map (List.count true)).sum

/-- Number of `True` mask entries strictly before row `r` (row-major order). -/
def truesBefore (mask : List (List Bool)) (r : ℕ) : ℕ :=
  countTrues (mask.take r)

/-- `trigger_ids.repeat(rows, 1)` flattened row-major, as consumed by
`masked_scatter`. -/
def repeatFlat (trig : List ℤ) (rows : ℕ) : List ℤ :=
  (List.replicate rows trig).flatten

/-- `input_ids.masked_scatter(mask, src)` wrapped in the `try/except
RuntimeError` of `replace_trigger_tokens`: the scatter happens when the mask
has the shape of `input_ids` and no more `True` entries than `src` has
elements; otherwise the tensor is returned unchanged. -/
def maskedScatterGuard (input_ids : List (List ℤ)) (mask : List (List Bool))
    (src : List ℤ) : List (List ℤ) :=
  if mask.length = input_ids.length ∧
      (∀ i, i < mask.length →
        (mask.getD i []).length = (input_ids.getD i []).length) ∧
      countTrues mask ≤ src.length
  then scatterRows input_ids mask src
  else input_ids

/-- `create_trigger.replace_trigger_tokens`.  `none` models the `KeyError`
when the dict has no `input_ids` tensor of ids. -/
def replace_trigger_tokens (model_inputs : Dict) (trigger_ids : List ℤ)
    (trigger_mask : List (List Bool)) : Option Dict :=
  match dictGet model_inputs "input_ids" with
  | some (Tensor.ints input_ids) =>
    some (dictSet model_inputs "input_ids"
      (Tensor.ints (maskedScatterGuard input_ids trigger_mask
        (repeatFlat trigger_ids trigger_mask.length))))
  | _ => none

theorem tail_getD (src : List ℤ) (n : ℕ) :
    src.tail.getD n 0 = src.getD (n + 1) 0 := by
  cases src with
  | nil => rfl
  | cons x xs => rfl

theorem scatterRow_length (row : List ℤ) (mask : List Bool) (src : List ℤ) :
    (scatterRow row mask src).1.length = row.length := by
  induction row generalizing mask src with
  | nil => rfl
  | cons x xs ih =>
    cases mask with
    | nil => rfl
    | cons m ms =>
      rw [scatterRow]
      by_cases hm : m
      · rw [if_pos hm]
        simpa using ih ms src.tail
      · rw [if_neg hm]
        simpa using ih ms src

theorem scatterRow_rest (row : List ℤ) (mask : List Bool) (src : List ℤ)
    (hm : mask.length = row.length) :
    (scatterRow row mask src).2 = src.drop (mask.count true) := by
  induction row generalizing mask src with
  | nil =>
    cases mask with
    | nil => rfl
    | cons m ms => simp at hm
  | cons x xs ih =>
    cases mask with
    | nil => simp at hm
    | cons m ms =>
      rw [scatterRow]
      simp only [List.length_cons, Nat.add_right_cancel_iff] at hm
      by_cases hmm : m
      · rw [if_pos hmm]
        simp only
        rw [ih ms src.tail hm]
        subst hmm
        have hc : (true :: ms).count true = ms.count true + 1 := by
          rw [List.count_cons]
          simp
        rw [hc, ← List.drop_one, List.drop_drop, Nat.add_comm]
      · rw [if_neg hmm]
        simp only
        rw [ih ms src hm]
        have hc : (m :: ms).count true = ms.count true := by
          rw [List.count_cons]
          simp [hmm]
        rw [hc]

theorem headD_eq_getD (src : List ℤ) : src.headD 0 = src.getD 0 0 := by
  cases src with
  | nil => rfl
  | cons x xs => rfl

theorem drop_getD (l : List ℤ) (n m : ℕ) :
    (l.drop n).getD m 0 = l.getD (n + m) 0 := by
  induction l generalizing n with
  | nil => simp
  | cons x xs ih =>
    cases n with
    | zero => simp
    | succ n' =>
      rw [List.drop_succ_cons, ih n',
        show n' + 1 + m = n' + m + 1 from by omega, List.getD_cons_succ]

theorem scatterRow_getD (row : List ℤ) (mask : List Bool) (src : List ℤ)
    (hm : mask.length = row.length) (p : ℕ) (hp : p < row.length) :
    (scatterRow row mask src).1.getD p 0 =
      if (mask.getD p false) = true
      then src.getD ((mask.take p).count true) 0
      else row.getD p 0 := by
  induction row generalizing mask src p with
  | nil => simp at hp
  | cons x xs ih =>
    cases mask with
    | nil => simp at hm
    | cons m ms =>
      simp only [List.length_cons, Nat.add_right_cancel_iff] at hm
      rw [scatterRow]
      by_cases hmm : m = true
      · rw [if_pos hmm]
        subst hmm
        cases p with
        | zero =>
          simp only [List.getD_cons_zero, List.take_zero, List.count_nil]
          rw [if_pos trivial]
          exact headD_eq_getD src
        | succ p' =>
          have hp' : p' < xs.length := by
            simp only [List.length_cons] at hp
            omega
          simp only [List.getD_cons_succ]
          rw [ih ms src.tail hm p' hp']
          by_cases hms : (ms.getD p' false) = true
          · rw [if_pos hms, if_pos hms, tail_getD,
              show ((true :: ms).take (p' + 1)).count true
                  = (ms.take p').count true + 1 from by
                rw [List.take_succ_cons, List.count_cons]
                simp]
          · rw [if_neg hms, if_neg hms]
      · rw [if_neg hmm]
        simp only [Bool.not_eq_true] at hmm
        subst hmm
        cases p with
        | zero => simp
        | succ p' =>
          have hp' : p' < xs.length := by
            simp only [List.length_cons] at hp
            omega
          simp only [List.getD_cons_succ]
          rw [ih ms src hm p' hp']
          by_cases hms : (ms.getD p' false) = true
          · rw [if_pos hms, if_pos hms,
              show ((false :: ms).take (p' + 1)).count true
                  = (ms.take p').count true from by
                rw [List.take_succ_cons, List.count_cons]
                simp]
          · rw [if_neg hms, if_neg hms]

theorem scatterRows_length (rows : List (List ℤ)) (masks : List (List Bool))
    (src : List ℤ) : (scatterRows rows masks src).length = rows.length := by
  induction rows generalizing masks src with
  | nil => rfl
  | cons r rs ih =>
    cases masks with
    | nil => rfl
    | cons m ms =>
      rw [scatterRows]
      simp only [List.length_cons]
      rw [ih ms (scatterRow r m src).2]

theorem scatterRows_row_length (rows : List (List ℤ)) (masks : List (List Bool))
    (src : List ℤ) (r : ℕ) :
    ((scatterRows rows masks src).getD r []).length = (rows.getD r []).length := by
  induction rows generalizing masks src r with
  | nil => rfl
  | cons row rs ih =>
    cases masks with
    | nil => rfl
    | cons m ms =>
      rw [scatterRows]
      cases r with
      | zero => simpa using scatterRow_length row m src
      | succ r' => simpa using ih ms (scatterRow row m src).2 r'

theorem truesBefore_zero (masks : List (List Bool)) : truesBefore masks 0 = 0 := by
  rfl

theorem truesBefore_cons (m : List Bool) (ms : List (List Bool)) (r : ℕ) :
    truesBefore (m :: ms) (r + 1) = m.count true + truesBefore ms r := by
  rw [truesBefore, truesBefore, List.take_succ_cons, countTrues, countTrues]
  simp

/-- Position-wise characterisation of the row-major `masked_scatter`: the
`n`-th `True` position (row-major) receives the `n`-th source element, every
`False` position keeps its original value. -/
theorem scatterRows_getD (rows : List (List ℤ)) (masks : List (List Bool))
    (src : List ℤ)
    (hcols : ∀ i, (masks.getD i []).length = (rows.getD i []).length) :
    ∀ r p, r < rows.length → p < (rows.getD r []).length →
      ((scatterRows rows masks src).getD r []).getD p 0 =
        if ((masks.getD r []).getD p false) = true
        then src.getD (truesBefore masks r + ((masks.getD r []).take p).count true) 0
        else (rows.getD r []).getD p 0 := by
  induction rows generalizing masks src with
  | nil =>
    intro r p hr hp
    simp at hr
  | cons row rs ih =>
    intro r p hr hp
    cases masks with
    | nil =>
      have h0 := hcols r
      simp only [List.getD_nil, List.length_nil] at h0
      omega
    | cons m ms =>
      rw [scatterRows]
      cases r with
      | zero =>
        simp only [List.getD_cons_zero] at hp ⊢
        rw [scatterRow_getD row m src (by simpa using hcols 0) p hp,
          truesBefore_zero]
        simp
      | succ r' =>
        simp only [List.getD_cons_succ] at hp ⊢
        rw [scatterRow_rest row m src (by simpa using hcols 0)]
        rw [ih ms (src.drop (m.count true)) (fun i => by simpa using hcols (i + 1))
          r' p (by simpa using hr) hp]
        by_cases hms : ((ms.getD r' []).getD p false) = true
        · rw [if_pos hms, if_pos hms, drop_getD]
          congr 1
          rw [truesBefore_cons]
          omega
        · rw [if_neg hms, if_neg hms]

theorem repeatFlat_length (trig : List ℤ) (rows : ℕ) :
    (repeatFlat trig rows).length = rows * trig.length := by
  rw [repeatFlat]
  simp [List.length_flatten, List.map_replicate, List.sum_replicate,
    smul_eq_mul]

/-- C3 (amended): when the trigger mask has the shape of `input_ids` and no
more `True` entries than the row-repeated trigger has elements,
`replace_trigger_tokens` returns a dict whose `input_ids` holds, at the
mask-true positions in row-major order, the successive elements of the trigger
row repeated once per batch row, keeps the original ids at every other
position, and leaves every other dict entry untouched.  (When the mask has
more `True` entries than source elements — or a mismatched shape — the
`except RuntimeError` branch returns `input_ids` unchanged.) -/
theorem replace_trigger_tokens_spec (model_inputs : Dict) (trigger_ids : List ℤ)
    (trigger_mask : List (List Bool)) (input_ids : List (List ℤ))
    (hin : dictGet model_inputs "input_ids" = some (Tensor.ints input_ids))
    (hrows : trigger_mask.length = input_ids.length)
    (hcols : ∀ i, i < trigger_mask.length →
      (trigger_mask.getD i []).length = (input_ids.getD i []).length)
    (hcount : countTrues trigger_mask ≤ trigger_mask.length * trigger_ids.length) :
    ∃ out, replace_trigger_tokens model_inputs trigger_ids trigger_mask = some out ∧
      (∀ k, k ≠ "input_ids" → dictGet out k = dictGet model_inputs k) ∧
      ∃ M, dictGet out "input_ids" = some (Tensor.ints M) ∧
        M.length = input_ids.length ∧
        (∀ r, (M.getD r []).length = (input_ids.getD r []).length) ∧
        (∀ r p, r < input_ids.length → p < (input_ids.getD r []).length →
          (M.getD r []).getD p 0 =
            if ((trigger_mask.getD r []).getD p false) = true
            then (repeatFlat trigger_ids trigger_mask.length).getD
                   (truesBefore trigger_mask r +
                     ((trigger_mask.getD r []).take p).count true) 0
            else (input_ids.getD r []).getD p 0) := by
  have hcols' : ∀ i, (trigger_mask.getD i []).length = (input_ids.getD i []).length := by
    intro i
    by_cases hi : i < trigger_mask.length
    · exact hcols i hi
    · rw [List.getD_eq_default _ _ (by omega),
        List.getD_eq_default _ _ (by omega)]
      rfl
  have hguard : maskedScatterGuard input_ids trigger_mask
      (repeatFlat trigger_ids trigger_mask.length) =
      scatterRows input_ids trigger_mask (repeatFlat trigger_ids trigger_mask.length) := by
    rw [maskedScatterGuard, if_pos]
    exact ⟨hrows, hcols, by rw [repeatFlat_length]; exact hcount⟩
  refine ⟨dictSet model_inputs "input_ids"
      (Tensor.ints (maskedScatterGuard input_ids trigger_mask
        (repeatFlat trigger_ids trigger_mask.length))), ?_, ?_, ?_⟩
  · rw [replace_trigger_tokens, hin]
  · intro k hk
    exact dictSet_get_other model_inputs "input_ids" k _ (fun he => hk he.symm)
  · refine ⟨maskedScatterGuard input_ids trigger_mask
        (repeatFlat trigger_ids trigger_mask.length),
      dictSet_get_self model_inputs "input_ids" _, ?_, ?_, ?_⟩
    · rw [hguard]
      exact scatterRows_length input_ids trigger_mask _
    · intro r
      rw [hguard]
      exact scatterRows_row_length input_ids trigger_mask _ r
    · intro r p hr hp
      rw [hguard]
      exact scatterRows_getD input_ids trigger_mask _ hcols' r p hr hp

theorem replace_trigger_tokens_spec_witness :
    (dictGet [("input_ids", Tensor.ints [[1, 2, 3]]),
        ("attention_mask", Tensor.ints [[1, 1, 1]])] "input_ids"
      = some (Tensor.ints [[1, 2, 3]])) ∧
    (∃ out, replace_trigger_tokens
        [("input_ids", Tensor.ints [[1, 2, 3]]),
          ("attention_mask", Tensor.ints [[1, 1, 1]])]
        [7, 8] [[false, true, true]] = some out ∧
      (∀ k, k ≠ "input_ids" → dictGet out k =
        dictGet [("input_ids", Tensor.ints [[1, 2, 3]]),
          ("attention_mask", Tensor.ints [[1, 1, 1]])] k) ∧
      ∃ M, dictGet out "input_ids" = some (Tensor.ints M) ∧
        M.length = ([[1, 2, 3]] : List (List ℤ)).length ∧
        (∀ r, (M.getD r []).length = (([[1, 2, 3]] : List (List ℤ)).getD r []).length) ∧
        (∀ r p, r < ([[1, 2, 3]] : List (List ℤ)).length →
          p < (([[1, 2, 3]] : List (List ℤ)).getD r []).length →
          (M.getD r []).getD p 0 =
            if ((([[false, true, true]] : List (List Bool)).getD r []).getD p false) = true
            then (repeatFlat [7, 8] 1).getD
                   (truesBefore [[false, true, true]] r +
                     ((([[false, true, true]] : List (List Bool)).getD r []).take p).count true) 0
            else (([[1, 2, 3]] : List (List ℤ)).getD r []).getD p 0)) :=
  ⟨by decide,
    replace_trigger_tokens_spec
      [("input_ids", Tensor.ints [[1, 2, 3]]),
        ("attention_mask", Tensor.ints [[1, 1, 1]])]
      [7, 8] [[false, true, true]] [[1, 2, 3]]
      (by decide) (by decide) (by decide) (by decide)⟩

/-- C3 counterexample: with `input_ids = [[1, 2]]`, a single-token trigger
`[9]` and a mask whose two entries are both `True`, the repeated trigger has
fewer elements than the mask has `True` positions, `masked_scatter` raises
`RuntimeError`, and the `except` branch returns `input_ids` unchanged — so the
mask-true position `(0, 0)` holds `1`, which is not a trigger id, refuting the
claim as universally stated. -/
theorem replace_trigger_tokens_counterexample :
    replace_trigger_tokens [("input_ids", Tensor.ints [[1, 2]])] [9] [[true, true]]
      = some [("input_ids", Tensor.ints [[1, 2]])] ∧
    (([[true, true]] : List (List Bool)).getD 0 []).getD 0 false = true ∧
    (([[1, 2]] : List (List ℤ)).getD 0 []).getD 0 0 ∉ ([9] : List ℤ) := by
  exact ⟨by decide, by decide, by decide⟩

/-! ### `PredictWrapper.__call__` (claim C4)

The wrapper copies the inputs dict, pops the three masks, swaps in
`last_trigger_mask` for causal models (`LM_TYPE[self._model.name_or_path] ==
'causal'`), substitutes the trigger ids, for t5 models also sets
`labels = input_ids`, runs the (opaque) model, and returns
`logits.masked_select(predict_mask.unsqueeze(-1)).view(logits.size(0), -1)`. -/

/-- The `LM_TYPE` table of `create_trigger.py` (the `"gpt2"` entry is
commented out in the source). -/
def LM_TYPE : List (String × String) :=
  [("roberta-base", "masked"),
   ("roberta-large", "masked"),
   ("allenai/longformer-base-4096", "masked"),
   ("allenai/longformer-large-4096", "masked"),
   ("distilroberta-base", "masked"),
   ("bert-base-cased", "masked"),
   ("bert-large-cased", "masked"),
   ("distilbert-base-cased", "masked"),
   ("gpt2-medium", "causal"),
   ("gpt2-large", "causal"),
   ("gpt2-xl", "causal"),
   ("xlnet-base-cased", "causal"),
   ("xlnet-large-cased", "causal"),
   ("facebook/bart-base", "masked"),
   ("facebook/bart-large", "masked"),
   ("t5-small", "seq2seq"),
   ("t5-base", "seq2seq"),
   ("t5-large", "seq2seq"),
   ("google/t5-v1_1-base", "seq2seq"),
   ("facebook/opt-350m", "causal"),
   ("facebook/opt-1.3b", "causal"),
   ("facebook/opt-6.7b", "causal"),
   ("facebook/opt-13b", "causal"),
   ("facebook/opt-30b", "causal"),
   ("facebook/opt-66b", "causal"),
   ("facebook/opt-iml-max-30b", "causal"),
   ("facebook/opt-iml-max-1.3b", "causal"),
   ("facebook/galactica-6.7b", "causal"),
   ("facebook/galactica-30b", "causal")]

/-- Lookup in a Python string-keyed dict (`none` models `KeyError`). -/
def assocGet : List (String × String) → String → Option String
  | [], _ => none
  | (k', v') :: rest, k => if k' = k then some v' else assocGet rest k

/-- Whether `pat` is an initial segment of `s` (on character lists). -/
def startsWithChars : List Char → List Char → Bool
  | _, [] => true
  | [], _ :: _ => false
  | c :: cs, d :: ds => c = d && startsWithChars cs ds

/-- Whether `pat` occurs contiguously in `s` (on character lists). -/
def containsSub : List Char → List Char → Bool
  | [], pat => startsWithChars [] pat
  | c :: cs, pat => startsWithChars (c :: cs) pat || containsSub cs pat

/-- Python's substring test `pat in s`. -/
def strContains (s pat : String) : Bool :=
  containsSub s.toList pat.toList

/-- The vocab-logit vectors of one example at its mask-true positions, in
order: one row of `masked_select(predict_mask.unsqueeze(-1))`. -/
def rowSelect (lrow : List (List ℚ)) (mrow : List Bool) : List (List ℚ) :=
  (List.zip lrow mrow).filterMap (fun pv => if pv.2 then some pv.1 else none)

/-- `logits.masked_select(predict_mask.unsqueeze(-1)).view(logits.size(0), -1)`:
the selected logits are flattened row-major and re-split into
`logits.size(0)` equal rows. -/
def predictLogitsView (logits : List (List (List ℚ))) (pm : List (List Bool)) :
    List (List ℚ) :=
  chunkExact
    ((((List.zip logits pm).map
        (fun rp => (rowSelect rp.1 rp.2).flatten)).flatten).length / logits.length)
    (((List.zip logits pm).map
        (fun rp => (rowSelect rp.1 rp.2).flatten)).flatten)

/-- `PredictWrapper.__call__`.  The model forward pass is an abstract function
from the (copied, mask-free, trigger-substituted) inputs dict to per-position
vocab logits; `none` models the `KeyError` cases (a missing mask key, a model
name absent from `LM_TYPE`, or a missing `input_ids`). -/
def predictWrapperCall (name_or_path : String)
    (model : Dict → List (List (List ℚ)))
    (model_inputs : Dict) (trigger_ids : List ℤ) : Option (List (List ℚ)) :=
  match dictGet model_inputs "trigger_mask",
        dictGet (dictRemove model_inputs "trigger_mask") "predict_mask",
        dictGet (dictRemove (dictRemove model_inputs "trigger_mask")
          "predict_mask") "last_trigger_mask",
        assocGet LM_TYPE name_or_path with
  | some (Tensor.bools trigger_mask), some (Tensor.bools predict_mask),
      some (Tensor.bools last_trigger_mask), some lmty =>
    match replace_trigger_tokens
        (dictRemove (dictRemove (dictRemove model_inputs "trigger_mask")
          "predict_mask") "last_trigger_mask") trigger_ids trigger_mask with
    | some d4 =>
      some (predictLogitsView
        (model (if strContains name_or_path "t5" = true then
            (match dictGet d4 "input_ids" with
             | some v => dictSet d4 "labels" v
             | none => d4)
          else d4))
        (if lmty = "causal" then last_trigger_mask else predict_mask))
    | none => none
  | _, _, _, _ => none

theorem dictRemove_get_other (d : Dict) (k k' : String) (h : k ≠ k') :
    dictGet (dictRemove d k) k' = dictGet d k' := by
  induction d with
  | nil => rfl
  | cons p rest ih =>
    obtain ⟨k'', v''⟩ := p
    rw [dictRemove]
    by_cases h2 : k'' = k
    · rw [if_pos h2, dictGet, if_neg (by rw [h2]; exact h)]
    · rw [if_neg h2, dictGet, dictGet]
      by_cases h3 : k'' = k'
      · rw [if_pos h3, if_pos h3]
      · rw [if_neg h3, if_neg h3]
        exact ih

/-- Correctness of the `masked_select` + `view` composition: when every
example selects the same positive number of logit entries, the reshaped rows
are exactly the per-example selected logits. -/
theorem predictLogitsView_spec (logits : List (List (List ℚ)))
    (pm : List (List Bool)) (n : ℕ) (hn : 0 < n)
    (hlen : pm.length = logits.length)
    (hc : ∀ r, r < logits.length →
      ((rowSelect (logits.getD r []) (pm.getD r [])).flatten).length = n) :
    predictLogitsView logits pm =
      (List.zip logits pm).map (fun rp => (rowSelect rp.1 rp.2).flatten) := by
  have hzlen : (List.zip logits pm).length = logits.length := by
    rw [List.length_zip, hlen, min_self]
  have hall : ∀ row ∈ (List.zip logits pm).map
      (fun rp => (rowSelect rp.1 rp.2).flatten), row.length = n := by
    intro row hrow
    obtain ⟨i, hi, hieq⟩ := List.mem_iff_getElem.mp hrow
    rw [List.length_map, hzlen] at hi
    rw [List.getElem_map, List.getElem_zip] at hieq
    rw [← hieq]
    have hgoal := hc i hi
    rw [List.getD_eq_getElem logits [] hi,
      List.getD_eq_getElem pm [] (by omega)] at hgoal
    exact hgoal
  by_cases hbsz : logits.length = 0
  · rw [List.length_eq_zero] at hbsz
    subst hbsz
    rw [predictLogitsView]
    simp [chunkExact_nil]
  · have hmaplen : ((List.zip logits pm).map
        (fun rp => (rowSelect rp.1 rp.2).flatten)).map List.length =
        List.replicate logits.length n := by
      have := List.eq_replicate_of_mem (l := ((List.zip logits pm).map
          (fun rp => (rowSelect rp.1 rp.2).flatten)).map List.length) (a := n)
        (by intro b hb
            obtain ⟨row, hrow, hb2⟩ := List.mem_map.mp hb
            rw [← hb2]
            exact hall row hrow)
      rw [this, List.length_map, List.length_map, hzlen]
    have hflatlen : (((List.zip logits pm).map
        (fun rp => (rowSelect rp.1 rp.2).flatten)).flatten).length =
        logits.length * n := by
      rw [List.length_flatten, hmaplen, List.sum_replicate, smul_eq_mul]
    rw [predictLogitsView, hflatlen,
      Nat.mul_div_cancel_left n (Nat.pos_of_ne_zero hbsz)]
    exact chunkExact_flatten n hn _ hall

/-- C4 (amended): under the shape conditions the `.view(bsz, -1)` needs —
every example's effective predict mask selecting the same positive number of
logit entries — `PredictWrapper.__call__` returns, for each example, the
model's logits at exactly that example's predict-mask-true positions, the
model being applied to the inputs with the trigger ids substituted at the
trigger-mask positions (and, for t5 models, `labels` set to those substituted
ids); for models registered as `'causal'` in `LM_TYPE`, `last_trigger_mask`
replaces `predict_mask`, so prediction is read at the last trigger position. -/
theorem predictWrapperCall_spec (name_or_path : String)
    (model : Dict → List (List (List ℚ)))
    (model_inputs : Dict) (trigger_ids : List ℤ)
    (tm pm ltm : List (List Bool)) (lmty : String) (d4 d5 : Dict)
    (pmEff : List (List Bool)) (n : ℕ)
    (h_tm : dictGet model_inputs "trigger_mask" = some (Tensor.bools tm))
    (h_pm : dictGet model_inputs "predict_mask" = some (Tensor.bools pm))
    (h_ltm : dictGet model_inputs "last_trigger_mask" = some (Tensor.bools ltm))
    (h_lm : assocGet LM_TYPE name_or_path = some lmty)
    (h_rep : replace_trigger_tokens
      (dictRemove (dictRemove (dictRemove model_inputs "trigger_mask")
        "predict_mask") "last_trigger_mask") trigger_ids tm = some d4)
    (h_d5 : d5 = if strContains name_or_path "t5" = true then
        (match dictGet d4 "input_ids" with
         | some v => dictSet d4 "labels" v
         | none => d4)
      else d4)
    (h_pmEff : pmEff = if lmty = "causal" then ltm else pm)
    (hn : 0 < n)
    (hlen : pmEff.length = (model d5).length)
    (hc : ∀ r, r < (model d5).length →
      ((rowSelect ((model d5).getD r []) (pmEff.getD r [])).flatten).length = n) :
    predictWrapperCall name_or_path model model_inputs trigger_ids =
      some ((List.zip (model d5) pmEff).map
        (fun rp => (rowSelect rp.1 rp.2).flatten)) := by
  have h_pm' : dictGet (dictRemove model_inputs "trigger_mask") "predict_mask"
      = some (Tensor.bools pm) := by
    rw [dictRemove_get_other model_inputs "trigger_mask" "predict_mask" (by decide)]
    exact h_pm
  have h_ltm' : dictGet (dictRemove (dictRemove model_inputs "trigger_mask")
      "predict_mask") "last_trigger_mask" = some (Tensor.bools ltm) := by
    rw [dictRemove_get_other _ "predict_mask" "last_trigger_mask" (by decide),
      dictRemove_get_other _ "trigger_mask" "last_trigger_mask" (by decide)]
    exact h_ltm
  rw [predictWrapperCall]
  simp only [h_tm, h_pm', h_ltm', h_lm, h_rep]
  rw [← h_d5, ← h_pmEff]
  rw [predictLogitsView_spec (model d5) pmEff n hn hlen hc]

/-- C4 counterexample: with two examples whose predict masks select two
positions in the first row and none in the second (vocab size 1), the flat
`masked_select` followed by `.view(2, -1)` redistributes the first example's
two selected logits across both returned rows: the call returns `[[1], [2]]`,
whereas per-example selection would give `[[1, 2], []]` — the second row's
returned logits are not the logits at its predict-mask positions, refuting the
claim as universally stated. -/
theorem predictWrapperCall_counterexample :
    predictWrapperCall "roberta-base" (fun _ => [[[1], [2]], [[3], [4]]])
      [("trigger_mask", Tensor.bools [[false, false], [false, false]]),
       ("predict_mask", Tensor.bools [[true, true], [false, false]]),
       ("last_trigger_mask", Tensor.bools [[false, false], [false, false]]),
       ("input_ids", Tensor.ints [[5, 6], [7, 8]])] []
      = some [[1], [2]] ∧
    (List.zip ([[[1], [2]], [[3], [4]]] : List (List (List ℚ)))
        ([[true, true], [false, false]] : List (List Bool))).map
      (fun rp => (rowSelect rp.1 rp.2).flatten) = [[1, 2], []] ∧
    (some [[1], [2]] : Option (List (List ℚ))) ≠ some [[1, 2], []] := by
  exact ⟨by decide, by decide, by decide⟩

theorem predictWrapperCall_spec_witness :
    predictWrapperCall "gpt2-medium" (fun _ => [[[(1 : ℚ), 2], [3, 4]]])
      [("input_ids", Tensor.ints [[5, 6]]),
       ("trigger_mask", Tensor.bools [[true, false]]),
       ("predict_mask", Tensor.bools [[false, false]]),
       ("last_trigger_mask", Tensor.bools [[false, true]])] [9]
      = some [[3, 4]] := by
  have h := predictWrapperCall_spec "gpt2-medium" (fun _ => [[[(1 : ℚ), 2], [3, 4]]])
    [("input_ids", Tensor.ints [[5, 6]]),
     ("trigger_mask", Tensor.bools [[true, false]]),
     ("predict_mask", Tensor.bools [[false, false]]),
     ("last_trigger_mask", Tensor.bools [[false, true]])] [9]
    [[true, false]] [[false, false]] [[false, true]] "causal"
    [("input_ids", Tensor.ints [[9, 6]])] [("input_ids", Tensor.ints [[9, 6]])]
    [[false, true]] 2
    (by decide) (by decide) (by decide) (by decide) (by decide) (by decide)
    (by decide) (by decide) (by decide) (by decide)
  exact h.trans (by decide)

/-! ### `hotflip_attack` (claim C2)

`hotflip_attack` computes `embedding_matrix @ averaged_grad`, subtracts the
filter vector when given, multiplies by `-1` unless `increase_loss`, and
returns the indices of the `num_candidates` largest entries via `topk`. -/

/-- Dot product of two vectors. -/
def dotList (xs ys : List ℚ) : ℚ :=
  (List.zipWith (fun a b => a * b) xs ys).sum

/-- `torch.matmul(embedding_matrix, averaged_grad)`: one dot product per
embedding row. -/
def matVec (emb : List (List ℚ)) (g : List ℚ) : List ℚ :=
  emb.map (fun row => dotList row g)

/-- The order `topk` sorts indices by: score descending, ties towards the
smaller index. -/
def topkRel (scores : List ℚ) (i j : ℕ) : Prop :=
  scores.getD j 0 < scores.getD i 0 ∨
    (scores.getD i 0 = scores.getD j 0 ∧ i ≤ j)

instance topkRelDecidable (scores : List ℚ) : DecidableRel (topkRel scores) :=
  fun i j => by
    rw [topkRel]
    infer_instance

instance topkRelTotal (scores : List ℚ) : IsTotal ℕ (topkRel scores) := by
  constructor
  intro i j
  rcases lt_trichotomy (scores.getD i 0) (scores.getD j 0) with h | h | h
  · exact Or.inr (Or.inl h)
  · rcases Nat.le_total i j with h2 | h2
    · exact Or.inl (Or.inr ⟨h, h2⟩)
    · exact Or.inr (Or.inr ⟨h.symm, h2⟩)
  · exact Or.inl (Or.inl h)

instance topkRelTrans (scores : List ℚ) : IsTrans ℕ (topkRel scores) := by
  constructor
  intro a b c hab hbc
  rcases hab with h1 | ⟨h1, h1'⟩
  · rcases hbc with h2 | ⟨h2, h2'⟩
    · exact Or.inl (h2.trans h1)
    · exact Or.inl (by rw [← h2]; exact h1)
  · rcases hbc with h2 | ⟨h2, h2'⟩
    · exact Or.inl (by rw [h1]; exact h2)
    · exact Or.inr ⟨h1.trans h2, h1'.trans h2'⟩

/-- `scores.topk(k)` (indices only): the first `k` indices of
`range(len(scores))` sorted by descending score. -/
def topkIdx (scores : List ℚ) (k : ℕ) : List ℕ :=
  (List.insertionSort (topkRel scores) (List.range scores.length)).take k

/-- `create_trigger.hotflip_attack`. -/
def hotflip_attack (averaged_grad : List ℚ) (embedding_matrix : List (List ℚ))
    (increase_loss : Bool) (num_candidates : ℕ) (filter : Option (List ℚ)) :
    List ℕ :=
  topkIdx
    (if increase_loss then
      (match filter with
       | some f => List.zipWith (fun a b => a - b)
           (matVec embedding_matrix averaged_grad) f
       | none => matVec embedding_matrix averaged_grad)
     else
      (match filter with
       | some f => List.zipWith (fun a b => a - b)
           (matVec embedding_matrix averaged_grad) f
       | none => matVec embedding_matrix averaged_grad).map (fun x => -x))
    num_candidates

theorem topkIdx_length (scores : List ℚ) (k : ℕ) (hk : k ≤ scores.length) :
    (topkIdx scores k).length = k := by
  rw [topkIdx, List.length_take,
    (List.perm_insertionSort (topkRel scores) (List.range scores.length)).length_eq,
    List.length_range]
  omega

theorem topkIdx_nodup (scores : List ℚ) (k : ℕ) : (topkIdx scores k).Nodup :=
  (List.take_sublist k _).nodup
    (((List.perm_insertionSort (topkRel scores)
      (List.range scores.length)).nodup_iff).mpr (List.nodup_range scores.length))

theorem topkIdx_mem (scores : List ℚ) (k i : ℕ) (h : i ∈ topkIdx scores k) :
    i < scores.length := by
  have h2 := List.mem_of_mem_take h
  exact List.mem_range.mp
    ((List.perm_insertionSort (topkRel scores)
      (List.range scores.length)).mem_iff.mp h2)

/-- Every selected index scores at least as high as every unselected index:
`topk` returns the `k` largest entries. -/
theorem topkIdx_dominates (scores : List ℚ) (k i : ℕ)
    (hi : i ∈ topkIdx scores k) (j : ℕ) (hj : j < scores.length)
    (hjn : j ∉ topkIdx scores k) : scores.getD j 0 ≤ scores.getD i 0 := by
  have hsorted := List.sorted_insertionSort (topkRel scores)
    (List.range scores.length)
  have hpw := List.pairwise_append.mp
    (by rw [List.take_append_drop k (List.insertionSort (topkRel scores)
      (List.range scores.length))]; exact hsorted)
  have hjL : j ∈ List.insertionSort (topkRel scores) (List.range scores.length) :=
    (List.perm_insertionSort (topkRel scores)
      (List.range scores.length)).mem_iff.mpr (List.mem_range.mpr hj)
  have hjdrop : j ∈ (List.insertionSort (topkRel scores)
      (List.range scores.length)).drop k := by
    rcases List.mem_append.mp (by
      rw [List.take_append_drop k (List.insertionSort (topkRel scores)
        (List.range scores.length))]
      exact hjL) with hcase | hcase
    · exact absurd hcase hjn
    · exact hcase
  have hrel := hpw.2.2 i hi j hjdrop
  rcases hrel with h | ⟨h, _⟩
  · exact le_of_lt h
  · exact le_of_eq h.symm

/-- C2: `hotflip_attack` returns the indices of the `num_candidates` largest
entries of the score vector (each embedding row's dot product with the
gradient, minus the filter, negated when `increase_loss` is false): the result
has exactly `num_candidates` distinct valid indices and every returned index
scores at least as high as every index not returned.  Consequently, with
`increase_loss = false`, a token whose filter entry is a very large negative
number (below `-2B` where `B` bounds every dot product) is never among the
candidates as long as `num_candidates` is smaller than the number of
unfiltered tokens (filter entry `0`). -/
theorem hotflip_attack_spec (averaged_grad : List ℚ)
    (embedding_matrix : List (List ℚ)) (increase_loss : Bool)
    (num_candidates : ℕ) (filter : List ℚ) (j : ℕ) (B : ℚ) (w s : List ℚ)
    (hw : w = List.zipWith (fun a b => a - b)
      (matVec embedding_matrix averaged_grad) filter)
    (hs : s = if increase_loss then w else w.map (fun x => -x))
    (hk : num_candidates ≤ embedding_matrix.length)
    (hflen : filter.length = embedding_matrix.length)
    (hB : ∀ i, i < embedding_matrix.length →
      |dotList (embedding_matrix.getD i []) averaged_grad| ≤ B)
    (hj : j < embedding_matrix.length)
    (hfj : filter.getD j 0 < -(2 * B))
    (hU : num_candidates < ((List.range embedding_matrix.length).filter
      (fun i => filter.getD i 0 = 0)).length) :
    hotflip_attack averaged_grad embedding_matrix increase_loss num_candidates
        (some filter) = topkIdx s num_candidates ∧
    (topkIdx s num_candidates).length = num_candidates ∧
    (topkIdx s num_candidates).Nodup ∧
    (∀ i ∈ topkIdx s num_candidates, i < embedding_matrix.length) ∧
    (∀ i ∈ topkIdx s num_candidates, ∀ j2, j2 < embedding_matrix.length →
      j2 ∉ topkIdx s num_candidates → s.getD j2 0 ≤ s.getD i 0) ∧
    (increase_loss = false → j ∉ topkIdx s num_candidates) := by
  have hmlen : (matVec embedding_matrix averaged_grad).length
      = embedding_matrix.length := by
    rw [matVec, List.length_map]
  have hwlen : w.length = embedding_matrix.length := by
    rw [hw, List.length_zipWith, hmlen, hflen, min_self]
  have hslen : s.length = embedding_matrix.length := by
    rw [hs]
    cases increase_loss with
    | false => rw [if_neg (by simp), List.length_map, hwlen]
    | true => rw [if_pos rfl, hwlen]
  have heq : hotflip_attack averaged_grad embedding_matrix increase_loss
      num_candidates (some filter) = topkIdx s num_candidates := by
    rw [hotflip_attack, hs, hw]
  have hws : ∀ i, i < embedding_matrix.length →
      w.getD i 0 = dotList (embedding_matrix.getD i []) averaged_grad
        - filter.getD i 0 := by
    intro i hi
    rw [hw, List.getD_eq_getElem _ 0 (by rw [← hw]; omega),
      List.getElem_zipWith]
    rw [← List.getD_eq_getElem (matVec embedding_matrix averaged_grad) 0
      (show i < (matVec embedding_matrix averaged_grad).length from by omega)]
    rw [← List.getD_eq_getElem filter 0
      (show i < filter.length from by omega)]
    rw [matVec, List.getD_eq_getElem (embedding_matrix.map
        (fun row => dotList row averaged_grad)) 0
        (show i < (embedding_matrix.map
          (fun row => dotList row averaged_grad)).length from by
          rw [List.length_map]; omega),
      List.getElem_map]
    rw [← List.getD_eq_getElem embedding_matrix [] hi]
  refine ⟨heq, topkIdx_length s num_candidates (by omega),
    topkIdx_nodup s num_candidates,
    fun i hi => by have := topkIdx_mem s num_candidates i hi; omega,
    fun i hi j2 hj2 hj2n => topkIdx_dominates s num_candidates i hi j2
      (by omega) hj2n, ?_⟩
  intro hil hjmem
  subst hil
  have hsneg : ∀ i, i < embedding_matrix.length →
      s.getD i 0 = filter.getD i 0
        - dotList (embedding_matrix.getD i []) averaged_grad := by
    intro i hi
    rw [hs, if_neg (by simp), List.getD_eq_getElem _ 0 (by
        rw [List.length_map, hwlen]; omega), List.getElem_map]
    rw [← List.getD_eq_getElem w 0
      (show i < w.length from by rw [hwlen]; omega)]
    rw [hws i hi]
    ring
  have hUnodup : ((List.range embedding_matrix.length).filter
      (fun i => filter.getD i 0 = 0)).Nodup :=
    (List.nodup_range embedding_matrix.length).filter _
  have hex : ∃ u ∈ (List.range embedding_matrix.length).filter
      (fun i => filter.getD i 0 = 0), u ∉ topkIdx s num_candidates := by
    by_contra hc
    push_neg at hc
    have hsub : ((List.range embedding_matrix.length).filter
        (fun i => filter.getD i 0 = 0)) ⊆ topkIdx s num_candidates := hc
    have hle := (List.subperm_of_subset hUnodup hsub).length_le
    rw [topkIdx_length s num_candidates (by omega)] at hle
    omega
  obtain ⟨u, hu, hun⟩ := hex
  have huV : u < embedding_matrix.length :=
    List.mem_range.mp (List.mem_filter.mp hu).1
  have hufilt : filter.getD u 0 = 0 :=
    of_decide_eq_true (List.mem_filter.mp hu).2
  have h1 : s.getD u 0 ≤ s.getD j 0 :=
    topkIdx_dominates s num_candidates j hjmem u (by omega) hun
  have h2 : s.getD j 0 < s.getD u 0 := by
    rw [hsneg j hj, hsneg u huV, hufilt]
    have hBj := hB j hj
    have hBu := hB u huV
    rw [abs_le] at hBj hBu
    have := hBj.1
    have := hBu.2
    linarith
  linarith

theorem hotflip_attack_spec_witness :
    (1 : ℕ) < (((List.range 3).filter
      (fun i => ([0, -100, 0] : List ℚ).getD i 0 = 0)).length) ∧
    1 ∉ hotflip_attack [1] [[1], [0], [2]] false 1 (some [0, -100, 0]) := by
  constructor
  · decide
  · have h := hotflip_attack_spec [1] [[1], [0], [2]] false 1 [0, -100, 0] 1 2
      (List.zipWith (fun a b => a - b) (matVec [[1], [0], [2]] [1]) [0, -100, 0])
      ((List.zipWith (fun a b => a - b) (matVec [[1], [0], [2]] [1])
        [0, -100, 0]).map (fun x => -x))
      rfl (by rw [if_neg (by simp)]) (by decide) (by decide)
      (by intro i hi
          have hi3 : i < 3 := by simpa using hi
          interval_cases i <;> norm_num [dotList])
      (by decide)
      (by rw [List.getD_cons_succ, List.getD_cons_zero]; norm_num)
      (by decide)
    obtain ⟨heq, -, -, -, -, hexcl⟩ := h
    rw [heq]
    exact hexcl rfl

/-! ### Gradient accumulation (claim C5)

Per accumulation step the code reads the hook-captured per-example embedding
gradient, selects the `num_trigger_tokens` trigger positions
(`masked_select` + `view(bsz, num_trigger_tokens, emb_dim)`), sums over the
batch dimension, divides by `args.accumulation_steps`, and adds the result to
`averaged_grad` (which starts as `None`); the loop runs
`args.accumulation_steps` steps but breaks early when the training iterator is
exhausted. -/

/-- One training batch as seen by the accumulation loop: the hook-captured
gradient (`bsz × seq_len × emb_dim`) and the batch's trigger mask
(`bsz × seq_len`). -/
structure GradBatch where
  grad : List (List (List ℚ))
  mask : List (List Bool)
deriving DecidableEq

/-- Elementwise vector sum (tensor `+`). -/
def vecAdd (a b : List ℚ) : List ℚ :=
  List.zipWith (fun x y => x + y) a b

/-- Elementwise matrix sum (tensor `+`). -/
def matAdd (A B : List (List ℚ)) : List (List ℚ) :=
  List.zipWith vecAdd A B

/-- Multiply every matrix entry by `c` (tensor `/ accumulation_steps` with
`c = 1/steps`). -/
def matScale (c : ℚ) (A : List (List ℚ)) : List (List ℚ) :=
  A.map (fun row => row.map (fun x => c * x))

/-- `torch.masked_select(grad, trigger_mask.unsqueeze(-1)).view(bsz,
num_trigger_tokens, emb_dim)`: the embedding-gradient vectors at the trigger
positions, row-major, regrouped per example. -/
def selectTriggerGrad (numTrig : ℕ) (b : GradBatch) : List (List (List ℚ)) :=
  chunkExact numTrig
    (((List.zip b.grad b.mask).map (fun rm => rowSelect rm.1 rm.2)).flatten)

/-- `grad.sum(dim=0)`: sum of the per-example trigger-position gradients. -/
def sumExamples : List (List (List ℚ)) → List (List ℚ)
  | [] => []
  | e :: es => es.foldl matAdd e

/-- The gradient-accumulation loop of `run_model`: starting from
`averaged_grad = None`, each processed batch adds
`grad.sum(dim=0) / accumulation_steps`; at most `accumulation_steps` batches
are processed (fewer when the iterator is exhausted). -/
def accumGrad (accumulation_steps numTrig : ℕ) (batches : List GradBatch) :
    Option (List (List ℚ)) :=
  (batches.take accumulation_steps).foldl
    (fun acc b =>
      match acc with
      | none => some (matScale (1 / (accumulation_steps : ℚ))
          (sumExamples (selectTriggerGrad numTrig b)))
      | some m => some (matAdd m (matScale (1 / (accumulation_steps : ℚ))
          (sumExamples (selectTriggerGrad numTrig b)))))
    none

theorem vecScale_add (c : ℚ) (a b : List ℚ) :
    vecAdd (a.map (fun x => c * x)) (b.map (fun x => c * x)) =
      (vecAdd a b).map (fun x => c * x) := by
  rw [vecAdd, vecAdd, List.zipWith_map, List.map_zipWith]
  congr 1
  funext x y
  ring

theorem matScale_add (c : ℚ) (A B : List (List ℚ)) :
    matAdd (matScale c A) (matScale c B) = matScale c (matAdd A B) := by
  rw [matAdd, matAdd, matScale, matScale, matScale,
    List.zipWith_map, List.map_zipWith]
  congr 1
  funext a b
  exact vecScale_add c a b

theorem accumFold_some (c : ℚ) (f : GradBatch → List (List ℚ)) :
    ∀ (l : List GradBatch) (m : List (List ℚ)),
      l.foldl (fun acc b =>
          match acc with
          | none => some (matScale c (f b))
          | some m' => some (matAdd m' (matScale c (f b)))) (some m) =
        some (l.foldl (fun m' b => matAdd m' (matScale c (f b))) m)
  | [], m => rfl
  | b :: l, m => by
    rw [List.foldl_cons, List.foldl_cons]
    exact accumFold_some c f l (matAdd m (matScale c (f b)))

theorem scaleFold (c : ℚ) (f : GradBatch → List (List ℚ)) :
    ∀ (l : List GradBatch) (m : List (List ℚ)),
      l.foldl (fun m' b => matAdd m' (matScale c (f b))) (matScale c m) =
        matScale c (l.foldl (fun m' b => matAdd m' (f b)) m)
  | [], m => rfl
  | b :: l, m => by
    rw [List.foldl_cons, List.foldl_cons, matScale_add]
    exact scaleFold c f l (matAdd m (f b))

/-- C5: after the accumulation loop, `averaged_grad` is `None` exactly when no
batch was processed, and otherwise equals `1/accumulation_steps` times the sum
over the processed batches (the first `accumulation_steps` batches, or all of
them when the iterator runs out earlier — the divisor staying
`accumulation_steps`) of the per-batch sums of the per-example
trigger-position gradients; moreover, when every example's mask selects
exactly `num_trigger_tokens` positions, the selected gradient is precisely
each example's gradient vectors at its trigger positions. -/
theorem accumGrad_spec (accumulation_steps numTrig : ℕ)
    (batches : List GradBatch) :
    (accumGrad accumulation_steps numTrig batches = none ↔
      batches.take accumulation_steps = []) ∧
    (∀ b0 rest, batches.take accumulation_steps = b0 :: rest →
      accumGrad accumulation_steps numTrig batches =
        some (matScale (1 / (accumulation_steps : ℚ))
          (rest.foldl
            (fun m b => matAdd m (sumExamples (selectTriggerGrad numTrig b)))
            (sumExamples (selectTriggerGrad numTrig b0))))) ∧
    (∀ b : GradBatch, 0 < numTrig →
      (∀ r, r < b.grad.length →
        (rowSelect (b.grad.getD r []) (b.mask.getD r [])).length = numTrig) →
      b.mask.length = b.grad.length →
      selectTriggerGrad numTrig b =
        (List.zip b.grad b.mask).map (fun rm => rowSelect rm.1 rm.2)) := by
  refine ⟨?_, ?_, ?_⟩
  · constructor
    · intro h
      by_contra hc
      obtain ⟨b0, rest, hcons⟩ := List.exists_cons_of_ne_nil hc
      rw [accumGrad, hcons, List.foldl_cons] at h
      rw [accumFold_some] at h
      exact Option.some_ne_none _ h
    · intro h
      rw [accumGrad, h]
      rfl
  · intro b0 rest hcons
    have h1 := accumFold_some (1 / (accumulation_steps : ℚ))
      (fun b => sumExamples (selectTriggerGrad numTrig b)) rest
      (matScale (1 / (accumulation_steps : ℚ))
        (sumExamples (selectTriggerGrad numTrig b0)))
    have h2 := scaleFold (1 / (accumulation_steps : ℚ))
      (fun b => sumExamples (selectTriggerGrad numTrig b)) rest
      (sumExamples (selectTriggerGrad numTrig b0))
    rw [accumGrad, hcons, List.foldl_cons]
    exact h1.trans (congrArg some h2)
  · intro b hn hrows hlen
    rw [selectTriggerGrad]
    have hzlen : (List.zip b.grad b.mask).length = b.grad.length := by
      rw [List.length_zip, hlen, min_self]
    refine chunkExact_flatten numTrig hn _ ?_
    intro l hl
    obtain ⟨i, hi, hieq⟩ := List.mem_iff_getElem.mp hl
    rw [List.length_map, hzlen] at hi
    rw [List.getElem_map, List.getElem_zip] at hieq
    rw [← hieq]
    have hgoal := hrows i hi
    rw [List.getD_eq_getElem b.grad [] hi,
      List.getD_eq_getElem b.mask [] (by omega)] at hgoal
    exact hgoal

theorem accumGrad_spec_witness :
    (([⟨[[[1, 2], [3, 4]]], [[true, false]]⟩] : List GradBatch).take 2 =
      (⟨[[[1, 2], [3, 4]]], [[true, false]]⟩ : GradBatch) :: []) ∧
    accumGrad 2 1 [⟨[[[1, 2], [3, 4]]], [[true, false]]⟩] =
      some (matScale (1 / (2 : ℚ))
        (List.foldl (fun m b => matAdd m (sumExamples (selectTriggerGrad 1 b)))
          (sumExamples (selectTriggerGrad 1
            (⟨[[[1, 2], [3, 4]]], [[true, false]]⟩ : GradBatch))) [])) :=
  ⟨rfl, (accumGrad_spec 2 1 [⟨[[[1, 2], [3, 4]]], [[true, false]]⟩]).2.1
    ⟨[[[1, 2], [3, 4]]], [[true, false]]⟩ [] rfl⟩

/-! ### One iteration of the trigger-search loop (claim C1)

Per iteration the code draws `token_to_flip` at random, generates candidates,
re-scores the current trigger and every candidate over the same (fresh)
training batches, optionally overrides `current_score` with `-inf` when
`--print-lama` is given and the trigger still contains the mask token, and
rewrites `trigger_ids[:, token_to_flip]` to the argmax candidate iff
`(candidate_scores > current_score).any()`; otherwise it `continue`s, skipping
that iteration's dev-set evaluation.  The predictor+evaluation pipeline summed
over a batch is abstracted as `evalSum trigger batch`. -/

/-- The re-scoring loop: over the processed batches, accumulate the current
trigger's summed evaluation metric into `current_score` and each candidate's
(trigger with `token_to_flip` set to that candidate) summed metric into
`candidate_scores`. -/
def rescoreLoop {β : Type} (evalSum : List ℤ → β → ℚ) (batches : List β)
    (accumulation_steps : ℕ) (trigger : List ℤ) (token_to_flip : ℕ)
    (candidates : List ℤ) : ℚ × List ℚ :=
  (batches.take accumulation_steps).foldl
    (fun acc b =>
      (acc.1 + evalSum trigger b,
       List.zipWith (fun s c => s + evalSum (trigger.set token_to_flip c) b)
         acc.2 candidates))
    (0, List.replicate candidates.length 0)

/-- `torch.argmax` on a vector: the first index attaining the maximum
(`0` on the empty list). -/
def argmaxIdx : List ℚ → ℕ
  | [] => 0
  | x :: xs => if xs.all (fun v => decide (v ≤ x)) then 0 else argmaxIdx xs + 1

/-- The trigger update at the end of an iteration, including the
`--print-lama` override that treats the current score as `-inf` (modelled as
`⊥ : WithBot ℚ`) while the trigger still contains the mask token.  Returns the
new trigger ids and whether the iteration goes on to the dev-set evaluation
(`false` models the `continue`). -/
def trigFlipUpdate (print_lama : Bool) (mask_token_id : ℤ) (trigger : List ℤ)
    (token_to_flip : ℕ) (candidates : List ℤ) (current_score : ℚ)
    (candidate_scores : List ℚ) : List ℤ × Bool :=
  if candidate_scores.any (fun s => decide
      ((if print_lama ∧ mask_token_id ∈ trigger then (⊥ : WithBot ℚ)
        else (current_score : WithBot ℚ)) < (s : WithBot ℚ))) then
    (trigger.set token_to_flip
      (candidates.getD (argmaxIdx candidate_scores) 0), true)
  else (trigger, false)

/-- One full candidate-evaluation-and-update phase of a search iteration. -/
def iterStep {β : Type} (evalSum : List ℤ → β → ℚ) (batches : List β)
    (accumulation_steps : ℕ) (print_lama : Bool) (mask_token_id : ℤ)
    (trigger : List ℤ) (token_to_flip : ℕ) (candidates : List ℤ) :
    List ℤ × Bool :=
  trigFlipUpdate print_lama mask_token_id trigger token_to_flip candidates
    (rescoreLoop evalSum batches accumulation_steps trigger token_to_flip
      candidates).1
    (rescoreLoop evalSum batches accumulation_steps trigger token_to_flip
      candidates).2

theorem argmaxIdx_lt (l : List ℚ) (h : l ≠ []) : argmaxIdx l < l.length := by
  induction l with
  | nil => exact absurd rfl h
  | cons x xs ih =>
    rw [argmaxIdx]
    by_cases hall : xs.all (fun v => decide (v ≤ x)) = true
    · rw [if_pos hall]
      simp
    · rw [if_neg hall]
      have hne : xs ≠ [] := by
        intro hz
        rw [hz] at hall
        exact hall rfl
      have := ih hne
      simp only [List.length_cons]
      omega

theorem argmaxIdx_max (l : List ℚ) : ∀ j, j < l.length →
    l.getD j 0 ≤ l.getD (argmaxIdx l) 0 := by
  induction l with
  | nil =>
    intro j hj
    simp at hj
  | cons x xs ih =>
    intro j hj
    rw [argmaxIdx]
    by_cases hall : xs.all (fun v => decide (v ≤ x)) = true
    · rw [if_pos hall, List.getD_cons_zero]
      match j with
      | 0 => rw [List.getD_cons_zero]
      | j + 1 =>
        rw [List.getD_cons_succ]
        have hj' : j < xs.length := by
          simp only [List.length_cons] at hj
          omega
        have hmem : xs.getD j 0 ∈ xs := by
          rw [List.getD_eq_getElem xs 0 hj']
          exact List.getElem_mem hj'
        exact of_decide_eq_true (List.all_eq_true.mp hall _ hmem)
    · rw [if_neg hall, List.getD_cons_succ]
      have hne : xs ≠ [] := by
        intro hz
        rw [hz] at hall
        exact hall rfl
      match j with
      | 0 =>
        rw [List.getD_cons_zero]
        have hex : ∃ v ∈ xs, ¬ (decide (v ≤ x) = true) := by
          by_contra hc
          push_neg at hc
          exact hall (List.all_eq_true.mpr hc)
        obtain ⟨v, hv, hvx⟩ := hex
        have hxv : x < v := lt_of_not_le (fun hle => hvx (decide_eq_true hle))
        obtain ⟨iv, hiv, hveq⟩ := List.mem_iff_getElem.mp hv
        have hvle := ih iv hiv
        rw [List.getD_eq_getElem xs 0 hiv, hveq] at hvle
        exact le_of_lt (lt_of_lt_of_le hxv hvle)
      | j + 1 =>
        rw [List.getD_cons_succ]
        exact ih j (by simp only [List.length_cons] at hj; omega)

theorem getD_set_ne (l : List ℤ) (i j : ℕ) (a : ℤ) (h : i ≠ j) :
    (l.set i a).getD j 0 = l.getD j 0 := by
  by_cases hj : j < l.length
  · rw [List.getD_eq_getElem _ 0 (by simpa using hj),
      List.getD_eq_getElem _ 0 hj]
    exact List.getElem_set_ne h _
  · rw [List.getD_eq_default _ 0 (by simpa using hj),
      List.getD_eq_default _ 0 (by omega)]

theorem rescoreFold_closed {β : Type} (evalSum : List ℤ → β → ℚ)
    (trigger : List ℤ) (token_to_flip : ℕ) (candidates : List ℤ) :
    ∀ (l : List β) (c0 : ℚ) (s0 : List ℚ), s0.length = candidates.length →
      (l.foldl (fun acc b =>
          (acc.1 + evalSum trigger b,
           List.zipWith (fun s c => s + evalSum (trigger.set token_to_flip c) b)
             acc.2 candidates)) (c0, s0)).1
        = c0 + (l.map (evalSum trigger)).sum ∧
      (l.foldl (fun acc b =>
          (acc.1 + evalSum trigger b,
           List.zipWith (fun s c => s + evalSum (trigger.set token_to_flip c) b)
             acc.2 candidates)) (c0, s0)).2.length = candidates.length ∧
      (∀ i, i < candidates.length →
        (l.foldl (fun acc b =>
            (acc.1 + evalSum trigger b,
             List.zipWith (fun s c => s + evalSum (trigger.set token_to_flip c) b)
               acc.2 candidates)) (c0, s0)).2.getD i 0
          = s0.getD i 0 + (l.map (fun b =>
              evalSum (trigger.set token_to_flip (candidates.getD i 0)) b)).sum)
  | [], c0, s0, hs0 => ⟨by simp, hs0, fun i hi => by simp⟩
  | b :: l, c0, s0, hs0 => by
    rw [List.foldl_cons]
    have hs1 : (List.zipWith
        (fun s c => s + evalSum (trigger.set token_to_flip c) b)
        s0 candidates).length = candidates.length := by
      rw [List.length_zipWith, hs0, min_self]
    have hrec := rescoreFold_closed evalSum trigger token_to_flip candidates l
      (c0 + evalSum trigger b) _ hs1
    refine ⟨?_, hrec.2.1, ?_⟩
    · rw [hrec.1, List.map_cons, List.sum_cons]
      ring
    · intro i hi
      rw [hrec.2.2 i hi]
      have hz : (List.zipWith
          (fun s c => s + evalSum (trigger.set token_to_flip c) b)
          s0 candidates).getD i 0
          = s0.getD i 0 + evalSum (trigger.set token_to_flip
            (candidates.getD i 0)) b := by
        rw [List.getD_eq_getElem _ 0 (by omega), List.getElem_zipWith]
        rw [← List.getD_eq_getElem s0 0
          (show i < s0.length from by omega)]
        rw [← List.getD_eq_getElem candidates 0
          (show i < candidates.length from by omega)]
      rw [hz, List.map_cons, List.sum_cons]
      ring

theorem rescoreLoop_closed {β : Type} (evalSum : List ℤ → β → ℚ)
    (batches : List β) (accumulation_steps : ℕ) (trigger : List ℤ)
    (token_to_flip : ℕ) (candidates : List ℤ) :
    (rescoreLoop evalSum batches accumulation_steps trigger token_to_flip
        candidates).1
      = ((batches.take accumulation_steps).map (evalSum trigger)).sum ∧
    (rescoreLoop evalSum batches accumulation_steps trigger token_to_flip
        candidates).2
      = (List.range candidates.length).map (fun i =>
          ((batches.take accumulation_steps).map (fun b =>
            evalSum (trigger.set token_to_flip (candidates.getD i 0)) b)).sum) := by
  have h := rescoreFold_closed evalSum trigger token_to_flip candidates
    (batches.take accumulation_steps) 0 (List.replicate candidates.length 0)
    (List.length_replicate candidates.length 0)
  constructor
  · rw [rescoreLoop, h.1, zero_add]
  · rw [rescoreLoop]
    apply List.ext_getElem
    · rw [h.2.1, List.length_map, List.length_range]
    · intro i h1 h2m
      have h2 : i < candidates.length := by
        rw [List.length_map, List.length_range] at h2m
        exact h2m
      rw [← List.getD_eq_getElem _ (0 : ℚ) h1,
        ← List.getD_eq_getElem _ (0 : ℚ) h2m]
      rw [h.2.2 i h2]
      rw [List.getD_eq_getElem _ (0 : ℚ) h2m, List.getElem_map,
        List.getElem_range]
      rw [show (List.replicate candidates.length (0 : ℚ)).getD i 0 = 0 from by
        rw [List.getD_eq_getElem _ 0 (by rw [List.length_replicate]; omega)]
        exact List.getElem_replicate ..]
      rw [zero_add]

/-- C1 (amended): in each iteration, letting the current and candidate scores
be the evaluation metrics accumulated over the re-scoring batches, and the
effective current score be `-inf` when `--print-lama` is given and the trigger
still contains the mask token (the accumulated score otherwise): the trigger
is rewritten at the single randomly chosen position `token_to_flip` to the
first highest-scoring candidate iff some candidate's accumulated score
strictly exceeds the effective current score (so that iteration's dev-set
evaluation runs); otherwise the trigger ids are unchanged and the dev-set
evaluation is skipped.  Every other position is unchanged in all cases, the
chosen candidate's score dominates all candidates, and on a rewrite it
strictly exceeds the effective current score. -/
theorem iterStep_spec {β : Type} (evalSum : List ℤ → β → ℚ) (batches : List β)
    (accumulation_steps : ℕ) (print_lama : Bool) (mask_token_id : ℤ)
    (trigger : List ℤ) (token_to_flip : ℕ) (candidates : List ℤ)
    (curScore : ℚ) (candScores : List ℚ) (effCur : WithBot ℚ)
    (hcur : curScore
      = ((batches.take accumulation_steps).map (evalSum trigger)).sum)
    (hcands : candScores = (List.range candidates.length).map (fun i =>
      ((batches.take accumulation_steps).map (fun b =>
        evalSum (trigger.set token_to_flip (candidates.getD i 0)) b)).sum))
    (heff : effCur = if print_lama ∧ mask_token_id ∈ trigger then ⊥
      else (curScore : WithBot ℚ)) :
    (iterStep evalSum batches accumulation_steps print_lama mask_token_id
        trigger token_to_flip candidates
      = if candScores.any (fun s => decide (effCur < (s : WithBot ℚ))) then
          (trigger.set token_to_flip
            (candidates.getD (argmaxIdx candScores) 0), true)
        else (trigger, false)) ∧
    ((iterStep evalSum batches accumulation_steps print_lama mask_token_id
        trigger token_to_flip candidates).1.length = trigger.length) ∧
    (∀ p, p ≠ token_to_flip →
      (iterStep evalSum batches accumulation_steps print_lama mask_token_id
        trigger token_to_flip candidates).1.getD p 0 = trigger.getD p 0) ∧
    (∀ i, i < candScores.length →
      candScores.getD i 0 ≤ candScores.getD (argmaxIdx candScores) 0) ∧
    (candScores.any (fun s => decide (effCur < (s : WithBot ℚ))) = true →
      effCur < ((candScores.getD (argmaxIdx candScores) 0 : ℚ) : WithBot ℚ)) := by
  have hclosed := rescoreLoop_closed evalSum batches accumulation_steps trigger
    token_to_flip candidates
  have hmain : iterStep evalSum batches accumulation_steps print_lama
      mask_token_id trigger token_to_flip candidates
      = if candScores.any (fun s => decide (effCur < (s : WithBot ℚ))) then
          (trigger.set token_to_flip
            (candidates.getD (argmaxIdx candScores) 0), true)
        else (trigger, false) := by
    rw [iterStep, hclosed.1, hclosed.2, trigFlipUpdate, ← hcands, ← hcur, ← heff]
  refine ⟨hmain, ?_, ?_, fun i hi => argmaxIdx_max candScores i hi, ?_⟩
  · rw [hmain]
    by_cases hc : candScores.any (fun s => decide (effCur < (s : WithBot ℚ))) = true
    · rw [if_pos hc]
      exact List.length_set trigger _ _
    · rw [if_neg hc]
  · intro p hp
    rw [hmain]
    by_cases hc : candScores.any (fun s => decide (effCur < (s : WithBot ℚ))) = true
    · rw [if_pos hc]
      exact getD_set_ne trigger token_to_flip p _ (fun he => hp he.symm)
    · rw [if_neg hc]
  · intro hany
    have hex := List.any_eq_true.mp hany
    obtain ⟨s, hs, hslt⟩ := hex
    obtain ⟨i, hi, hieq⟩ := List.mem_iff_getElem.mp hs
    have hle := argmaxIdx_max candScores i hi
    rw [List.getD_eq_getElem candScores 0 hi, hieq] at hle
    exact lt_of_lt_of_le (of_decide_eq_true hslt) (WithBot.coe_le_coe.mpr hle)

/-- C1 counterexample: with `--print-lama` and the mask token (id `0`) still
in the trigger, the current score is overridden with `-inf`, so the single
candidate (accumulated score `0`) triggers a rewrite even though it does not
strictly exceed the trigger's accumulated score (also `0`): the claim's
"if and only if" fails as stated. -/
theorem iterStep_print_lama_counterexample :
    (iterStep (β := Unit) (fun _ _ => 0) [()] 1 true 0 [0] 0 [7]).1 = [7] ∧
    ([7] : List ℤ) ≠ [0] ∧
    ¬ ((rescoreLoop (β := Unit) (fun _ _ => 0) [()] 1 [0] 0 [7]).2.any
        (fun s => decide
          ((rescoreLoop (β := Unit) (fun _ _ => 0) [()] 1 [0] 0 [7]).1 < s))
        = true) := by
  refine ⟨?_, by decide, ?_⟩
  · norm_num [iterStep, rescoreLoop, trigFlipUpdate, argmaxIdx,
      WithBot.bot_lt_coe]
  · norm_num [rescoreLoop]

theorem iterStep_spec_witness :
    ((0 : ℚ) + 0 = 0 + (0 : ℚ)) ∧
    ((iterStep (β := Unit) (fun _ _ => 0) [()] 1 true 0 [0] 0 [7]
      = if ([(0 : ℚ)].any (fun s => decide ((⊥ : WithBot ℚ) < (s : WithBot ℚ)))) then
          (([0] : List ℤ).set 0 ([7].getD (argmaxIdx [(0 : ℚ)]) 0), true)
        else ([0], false)) ∧
      ((iterStep (β := Unit) (fun _ _ => 0) [()] 1 true 0 [0] 0 [7]).1.length
        = ([0] : List ℤ).length) ∧
      (∀ p, p ≠ 0 →
        (iterStep (β := Unit) (fun _ _ => 0) [()] 1 true 0 [0] 0 [7]).1.getD p 0
          = ([0] : List ℤ).getD p 0) ∧
      (∀ i, i < [(0 : ℚ)].length →
        [(0 : ℚ)].getD i 0 ≤ [(0 : ℚ)].getD (argmaxIdx [(0 : ℚ)]) 0) ∧
      ([(0 : ℚ)].any (fun s => decide ((⊥ : WithBot ℚ) < (s : WithBot ℚ))) = true →
        (⊥ : WithBot ℚ) < (([(0 : ℚ)].getD (argmaxIdx [(0 : ℚ)]) 0 : ℚ) : WithBot ℚ))) :=
  ⟨rfl,
    iterStep_spec (β := Unit) (fun _ _ => 0) [()] 1 true 0 [0] 0 [7]
      0 [(0 : ℚ)] (⊥ : WithBot ℚ)
      (by simp) (by simp) (by simp)⟩

/-! ### `get_loss` and `AccuracyFn.__call__` (claim C8)

`get_loss` takes `log_softmax` of the logits, gathers the label-token
log-probabilities, subtracts `1e32` at padding positions (label id `0`),
`logsumexp`s them and negates.  `AccuracyFn.__call__` counts how many labels
in the label map have loss `≤` the gold label's loss and marks the example
correct when that count is at most `1`.  These use real `exp`/`log`, so this
part of the embedding lives over `ℝ` (and is noncomputable, like the
underlying float pipeline). -/

/-- `F.log_softmax(xs, dim=-1)`. -/
noncomputable def logSoftmax (xs : List ℝ) : List ℝ :=
  xs.map (fun x => x - Real.log ((xs.map Real.exp).sum))

/-- `torch.logsumexp(xs, dim=-1)`. -/
noncomputable def logsumexp (xs : List ℝ) : ℝ :=
  Real.log ((xs.map Real.exp).sum)

/-- `create_trigger.get_loss` for one example (`gather` assumes in-range
label ids; the float literal `1e32` is the padding penalty). -/
noncomputable def get_loss (predict_logits : List ℝ) (label_ids : List ℕ) : ℝ :=
  -(logsumexp (label_ids.map (fun t =>
    (logSoftmax predict_logits).getD t 0 - if t = 0 then (1e32 : ℝ) else 0)))

/-- One example of `AccuracyFn.__call__`: `ge_count = (all_label_logp ≤
gold_logp).sum()`, `correct = (ge_count ≤ 1).float()`. -/
noncomputable def accuracyCorrect (all_label_ids : List (List ℕ))
    (predict_logits : List ℝ) (gold_label_ids : List ℕ) : ℝ :=
  if ((all_label_ids.map (fun ids => get_loss predict_logits ids)).countP
      (fun l => decide (l ≤ get_loss predict_logits gold_label_ids))) ≤ 1
  then 1 else 0

/-- The batch form of `AccuracyFn.__call__` (every example is compared to the
same label map, `label_ids.repeat(bsz, 1)`). -/
noncomputable def accuracyCall (all_label_ids : List (List ℕ))
    (predict_logits : List (List ℝ)) (gold_label_ids : List (List ℕ)) :
    List ℝ :=
  (List.zip predict_logits gold_label_ids).map
    (fun pg => accuracyCorrect all_label_ids pg.1 pg.2)

theorem two_le_countP (p : ℝ → Bool) :
    ∀ (l : List ℝ) (i1 i2 : ℕ), i1 < i2 → i2 < l.length →
      p (l.getD i1 0) = true → p (l.getD i2 0) = true → 2 ≤ l.countP p := by
  intro l
  induction l with
  | nil =>
    intro i1 i2 h12 h2 hp1 hp2
    simp at h2
  | cons x xs ih =>
    intro i1 i2 h12 h2 hp1 hp2
    match i2, h12 with
    | i2 + 1, _ =>
      simp only [List.length_cons] at h2
      rw [List.getD_cons_succ] at hp2
      match i1 with
      | 0 =>
        rw [List.getD_cons_zero] at hp1
        rw [List.countP_cons, if_pos hp1]
        have hpos : 0 < xs.countP p := by
          rw [List.countP_pos_iff]
          refine ⟨xs.getD i2 0, ?_, hp2⟩
          rw [List.getD_eq_getElem xs 0 (by omega)]
          exact List.getElem_mem (by omega)
        omega
      | i1 + 1 =>
        rw [List.getD_cons_succ] at hp1
        have := ih i1 i2 (by omega) (by omega) hp1 hp2
        rw [List.countP_cons]
        by_cases hx : p x = true
        · rw [if_pos hx]
          omega
        · rw [if_neg hx]
          omega

theorem countP_le_one_of_unique (p : ℝ → Bool) :
    ∀ (l : List ℝ) (j : ℕ),
      (∀ i, i < l.length → i ≠ j → p (l.getD i 0) = false) →
      l.countP p ≤ 1 := by
  intro l
  induction l with
  | nil =>
    intro j h
    simp
  | cons x xs ih =>
    intro j h
    match j with
    | 0 =>
      have hz : xs.countP p = 0 := by
        rw [List.countP_eq_zero]
        intro a ha
        obtain ⟨i, hi, hieq⟩ := List.mem_iff_getElem.mp ha
        have := h (i + 1) (by simp only [List.length_cons]; omega) (by omega)
        rw [List.getD_cons_succ, List.getD_eq_getElem xs 0 hi, hieq] at this
        simp [this]
      rw [List.countP_cons, hz]
      by_cases hx : p x = true
      · rw [if_pos hx]
      · rw [if_neg hx]
        omega
    | j + 1 =>
      have hx : p x = false :=
        h 0 (by simp only [List.length_cons]; omega) (by omega)
      rw [List.countP_cons, if_neg (by rw [hx]; exact Bool.false_ne_true),
        Nat.add_zero]
      refine ih j ?_
      intro i hi hij
      have := h (i + 1) (by simp only [List.length_cons]; omega) (by omega)
      rw [List.getD_cons_succ] at this
      exact this

theorem countP_le_one_iff (l : List ℝ) (g : ℝ) (j : ℕ) (hj : j < l.length)
    (hgj : l.getD j 0 = g) :
    l.countP (fun x => decide (x ≤ g)) ≤ 1 ↔
      ∀ i, i < l.length → i ≠ j → g < l.getD i 0 := by
  constructor
  · intro h i hi hij
    by_contra hc
    push_neg at hc
    have hpi : decide (l.getD i 0 ≤ g) = true := decide_eq_true hc
    have hpj : decide (l.getD j 0 ≤ g) = true := decide_eq_true (le_of_eq hgj)
    rcases Nat.lt_or_ge i j with hij2 | hij2
    · have := two_le_countP (fun x => decide (x ≤ g)) l i j hij2 hj hpi hpj
      omega
    · have hij3 : j < i := by omega
      have := two_le_countP (fun x => decide (x ≤ g)) l j i hij3 hi hpj hpi
      omega
  · intro h
    refine countP_le_one_of_unique (fun x => decide (x ≤ g)) l j ?_
    intro i hi hij
    exact decide_eq_false (not_le.mpr (h i hi hij))

/-- C8: `AccuracyFn.__call__` marks an example correct (value `1.0`) iff at
most one label of the label map has total loss `≤` the gold label's loss; and
when the gold label ids occur in the label map (at index `j`), this happens
exactly when the gold label's loss is strictly smaller than every other
label's loss.  The batch output is the per-example application of this rule. -/
theorem accuracyCorrect_spec (all_label_ids : List (List ℕ))
    (predict_logits : List ℝ) (gold_label_ids : List ℕ) (j : ℕ)
    (hj : j < all_label_ids.length)
    (hgold : all_label_ids.getD j [] = gold_label_ids) :
    (accuracyCorrect all_label_ids predict_logits gold_label_ids = 1 ↔
      ((all_label_ids.map (fun ids => get_loss predict_logits ids)).countP
        (fun l => decide (l ≤ get_loss predict_logits gold_label_ids))) ≤ 1) ∧
    (accuracyCorrect all_label_ids predict_logits gold_label_ids = 1 ↔
      ∀ i, i < all_label_ids.length → i ≠ j →
        get_loss predict_logits gold_label_ids
          < get_loss predict_logits (all_label_ids.getD i [])) ∧
    (∀ (logitsB : List (List ℝ)) (goldB : List (List ℕ)) (r : ℕ),
      r < logitsB.length → logitsB.length = goldB.length →
      (accuracyCall all_label_ids logitsB goldB).getD r 0
        = accuracyCorrect all_label_ids (logitsB.getD r []) (goldB.getD r [])) := by
  have hiff1 : accuracyCorrect all_label_ids predict_logits gold_label_ids = 1 ↔
      ((all_label_ids.map (fun ids => get_loss predict_logits ids)).countP
        (fun l => decide (l ≤ get_loss predict_logits gold_label_ids))) ≤ 1 := by
    rw [accuracyCorrect]
    constructor
    · intro h
      by_contra hc
      rw [if_neg hc] at h
      exact zero_ne_one h
    · intro h
      rw [if_pos h]
  refine ⟨hiff1, ?_, ?_⟩
  · rw [hiff1]
    have hLlen : (all_label_ids.map
        (fun ids => get_loss predict_logits ids)).length
        = all_label_ids.length := List.length_map _ _
    have hgetD : ∀ i, i < all_label_ids.length →
        (all_label_ids.map (fun ids => get_loss predict_logits ids)).getD i 0
          = get_loss predict_logits (all_label_ids.getD i []) := by
      intro i hi
      rw [List.getD_eq_getElem _ 0 (by omega), List.getElem_map,
        List.getD_eq_getElem _ [] hi]
    have hgj : (all_label_ids.map
        (fun ids => get_loss predict_logits ids)).getD j 0
        = get_loss predict_logits gold_label_ids := by
      rw [hgetD j hj, hgold]
    rw [countP_le_one_iff _ _ j (by omega) hgj]
    constructor
    · intro h i hi hij
      have := h i (by omega) hij
      rw [hgetD i hi] at this
      exact this
    · intro h i hi hij
      rw [hgetD i (by omega)]
      exact h i (by omega) hij
  · intro logitsB goldB r hr hlen
    rw [accuracyCall]
    have hzlen : (List.zip logitsB goldB).length = logitsB.length := by
      rw [List.length_zip, hlen, min_self]
    rw [List.getD_eq_getElem _ 0 (by rw [List.length_map, hzlen]; omega),
      List.getElem_map, List.getElem_zip]
    rw [← List.getD_eq_getElem logitsB []
      (show r < logitsB.length from by omega)]
    rw [← List.getD_eq_getElem goldB []
      (show r < goldB.length from by omega)]

theorem accuracyCorrect_spec_witness :
    ((0 : ℕ) < ([[1], [2]] : List (List ℕ)).length ∧
      ([[1], [2]] : List (List ℕ)).getD 0 [] = [1]) ∧
    (accuracyCorrect [[1], [2]] [0, 0, 0] [1] = 1 ↔
      ∀ i, i < ([[1], [2]] : List (List ℕ)).length → i ≠ 0 →
        get_loss [0, 0, 0] [1]
          < get_loss [0, 0, 0] (([[1], [2]] : List (List ℕ)).getD i [])) :=
  ⟨⟨by decide, by decide⟩,
    (accuracyCorrect_spec [[1], [2]] [0, 0, 0] [1] 0
      (by decide) (by decide)).2.1⟩

/-! ### The `--print-lama` result file (claim C7)

After the search, when `--print-lama` is given the code builds
`out = {'relation': …, 'template': …, 'tokens': best_trigger_tokens}`, runs
`os.makedirs(args.output, exist_ok=True)`, and appends
`json.dumps(out)` as one line to
`"{output}/{name_suffix}_autoprompt_seed_{seed}.jsonl"` (open mode `"a"`),
where `name_suffix = model_name.split("/")[1] if "/" in model_name else
model_name`.  The filesystem is modelled as a directory set plus a map from
paths to lines; a missing file reads as empty, matching append-mode
creation. -/

/-- The JSON object written by the `--print-lama` block. -/
structure LamaOut where
  relation : String
  template : String
  tokens : List String
deriving DecidableEq

/-- `json.dumps` string escaping (backslash and quote; other characters of
the templates pass through unchanged). -/
def jsonEscape (s : String) : String :=
  String.mk (s.toList.foldr (fun c acc =>
    if c = '\\' then '\\' :: '\\' :: acc
    else if c = '"' then '\\' :: '"' :: acc
    else c :: acc) [])

/-- `json.dumps(out)` for the fixed three-key object, with Python's default
separators and insertion order `relation`, `template`, `tokens`. -/
def renderLamaOut (o : LamaOut) : String :=
  "\x7b\"relation\": \"" ++ jsonEscape o.relation
    ++ "\", \"template\": \"" ++ jsonEscape o.template
    ++ "\", \"tokens\": ["
    ++ String.intercalate ", "
        (o.tokens.map (fun t => "\"" ++ jsonEscape t ++ "\""))
    ++ "]\x7d"

/-- `model_name.split("/")[1] if "/" in model_name else model_name`. -/
def nameSuffix (model_name : String) : String :=
  if strContains model_name "/" then (model_name.splitOn "/").getD 1 model_name
  else model_name

/-- `"{}/{}_autoprompt_seed_{}.jsonl".format(output, name_suffix, seed)`. -/
def resultFileName (output name_suf : String) (seed : ℕ) : String :=
  output ++ "/" ++ name_suf ++ "_autoprompt_seed_" ++ toString seed ++ ".jsonl"

/-- Lines of a file (append mode creates missing files, so absent paths read
as no lines). -/
def fileGet : List (String × List String) → String → List String
  | [], _ => []
  | (p, ls) :: rest, path => if p = path then ls else fileGet rest path

/-- Appending one line to a file (created when absent). -/
def fileAppend : List (String × List String) → String → String →
    List (String × List String)
  | [], path, line => [(path, [line])]
  | (p, ls) :: rest, path, line =>
    if p = path then (p, ls ++ [line]) :: rest
    else (p, ls) :: fileAppend rest path line

/-- A filesystem: existing directories and files with their lines. -/
structure FS where
  dirs : List String
  files : List (String × List String)
deriving DecidableEq

/-- The `--print-lama` epilogue of `run_model`: create the output directory if
necessary and append the rendered JSON object as one line to the result
file. -/
def writeLamaResult (fs : FS) (output model_name : String) (seed : ℕ)
    (o : LamaOut) : FS :=
  { dirs := if output ∈ fs.dirs then fs.dirs else output :: fs.dirs,
    files := fileAppend fs.files
      (resultFileName output (nameSuffix model_name) seed) (renderLamaOut o) }

theorem fileAppend_get_self (files : List (String × List String))
    (path line : String) :
    fileGet (fileAppend files path line) path = fileGet files path ++ [line] := by
  induction files with
  | nil => simp [fileAppend, fileGet]
  | cons f rest ih =>
    obtain ⟨p, ls⟩ := f
    rw [fileAppend]
    by_cases hp : p = path
    · rw [if_pos hp, fileGet, if_pos hp, fileGet, if_pos hp]
    · rw [if_neg hp, fileGet, if_neg hp, fileGet, if_neg hp]
      exact ih

theorem fileAppend_get_other (files : List (String × List String))
    (path path' line : String) (h : path ≠ path') :
    fileGet (fileAppend files path line) path' = fileGet files path' := by
  induction files with
  | nil => simp [fileAppend, fileGet, h]
  | cons f rest ih =>
    obtain ⟨p, ls⟩ := f
    rw [fileAppend]
    by_cases hp : p = path
    · rw [if_pos hp, fileGet, if_neg (by rw [hp]; exact h), fileGet,
        if_neg (by rw [hp]; exact h)]
    · rw [if_neg hp, fileGet, fileGet]
      by_cases hp' : p = path'
      · rw [if_pos hp', if_pos hp']
      · rw [if_neg hp', if_neg hp']
        exact ih

/-- C7: the `--print-lama` epilogue appends exactly one line — the rendered
JSON object whose `tokens` are the best trigger tokens — to the result file
`{output}/{name_suffix}_autoprompt_seed_{seed}.jsonl`, preserving all lines
already in that file and every other file, and ensuring the output directory
exists (keeping all existing directories). -/
theorem writeLamaResult_spec (fs : FS) (output model_name : String)
    (seed : ℕ) (relation template : String) (best_trigger_tokens : List String) :
    (fileGet (writeLamaResult fs output model_name seed
        ⟨relation, template, best_trigger_tokens⟩).files
        (resultFileName output (nameSuffix model_name) seed)
      = fileGet fs.files (resultFileName output (nameSuffix model_name) seed)
        ++ [renderLamaOut ⟨relation, template, best_trigger_tokens⟩]) ∧
    (∀ p, p ≠ resultFileName output (nameSuffix model_name) seed →
      fileGet (writeLamaResult fs output model_name seed
          ⟨relation, template, best_trigger_tokens⟩).files p
        = fileGet fs.files p) ∧
    output ∈ (writeLamaResult fs output model_name seed
        ⟨relation, template, best_trigger_tokens⟩).dirs ∧
    (∀ d ∈ fs.dirs, d ∈ (writeLamaResult fs output model_name seed
        ⟨relation, template, best_trigger_tokens⟩).dirs) ∧
    (writeLamaResult fs output model_name seed
        ⟨relation, template, best_trigger_tokens⟩).files
      = fileAppend fs.files (resultFileName output (nameSuffix model_name) seed)
          (renderLamaOut ⟨relation, template, best_trigger_tokens⟩) := by
  refine ⟨fileAppend_get_self fs.files _ _,
    fun p hp => fileAppend_get_other fs.files _ p _ (fun he => hp he.symm),
    ?_, ?_, rfl⟩
  · rw [writeLamaResult]
    by_cases hd : output ∈ fs.dirs
    · rw [if_pos hd]
      exact hd
    · rw [if_neg hd]
      exact List.mem_cons_self output fs.dirs
  · intro d hd
    rw [writeLamaResult]
    by_cases hout : output ∈ fs.dirs
    · rw [if_pos hout]
      exact hd
    · rw [if_neg hout]
      exact List.mem_cons_of_mem output hd

theorem writeLamaResult_spec_witness :
    ("data" ∈ (⟨["data"], []⟩ : FS).dirs) ∧
    "data" ∈ (writeLamaResult ⟨["data"], []⟩ "out" "facebook/opt-350m" 3
        ⟨"P36", "[X] t [Y].", ["t"]⟩).dirs :=
  ⟨by decide,
    (writeLamaResult_spec ⟨["data"], []⟩ "out" "facebook/opt-350m" 3
      "P36" "[X] t [Y]." ["t"]).2.2.2.1 "data" (by decide)⟩

/-! ### Reference-level frame conditions (claim C10)

A value-level embedding cannot express the absence of mutation, so
`replace_trigger_tokens` and `PredictWrapper.__call__` are re-traced over an
explicit tensor store: tensor ids index into a store list, dicts map keys to
ids (Python dicts hold references), `dict.copy()` copies only the key→id
bindings, `pop` removes a binding from the copy, and the out-of-place tensor
ops (`masked_scatter`, `masked_select`+`view`) allocate fresh ids at the end
of the store; the t5 `labels` entry aliases the substituted `input_ids` id,
exactly as `model_inputs['labels'] = model_inputs['input_ids']` shares the
object.  Neither function writes an existing store cell (the code uses no
in-place op there), so the store is only ever extended. -/

/-- The tensor heap: ids are positions, allocation appends. -/
abbrev Store : Type := List Tensor

/-- Dereference a tensor id. -/
def storeGet (σ : Store) (id : ℕ) : Tensor := σ.getD id (Tensor.ints [])

/-- A Python dict of tensor references. -/
abbrev RefDict : Type := List (String × ℕ)

def refGet : RefDict → String → Option ℕ
  | [], _ => none
  | (k', v) :: rest, k => if k' = k then some v else refGet rest k

def refSet : RefDict → String → ℕ → RefDict
  | [], k, v => [(k, v)]
  | (k', v') :: rest, k, v =>
    if k' = k then (k, v) :: rest else (k', v') :: refSet rest k v

def refRemove : RefDict → String → RefDict
  | [], _ => []
  | (k', v') :: rest, k => if k' = k then rest else (k', v') :: refRemove rest k

/-- Project a boolean-tensor value (a mask read from the store). -/
def tensorBools : Tensor → Option (List (List Bool))
  | Tensor.bools b => some b
  | _ => none

/-- `replace_trigger_tokens` over the store: read `input_ids`, compute the
out-of-place scatter, allocate it fresh, and point the copied dict's
`input_ids` binding at it.  The caller's `d` is untouched. -/
def replaceTriggerTokensStore (σ : Store) (d : RefDict) (trigger_ids : List ℤ)
    (trigger_mask : List (List Bool)) : Option (RefDict × Store) :=
  match refGet d "input_ids" with
  | some iid =>
    match storeGet σ iid with
    | Tensor.ints input_ids =>
      some (refSet d "input_ids" σ.length,
        σ ++ [Tensor.ints (maskedScatterGuard input_ids trigger_mask
          (repeatFlat trigger_ids trigger_mask.length))])
    | _ => none
  | none => none

/-- `PredictWrapper.__call__` over the store: pop the three masks from the
dict copy, look up the LM type, substitute the trigger (one allocation), for
t5 alias `labels` to the substituted `input_ids`, run the abstract model, and
allocate the selected predict logits as the returned tensor. -/
def predictWrapperCallStore (name_or_path : String)
    (model : Store → RefDict → List (List (List ℚ)))
    (σ : Store) (d : RefDict) (trigger_ids : List ℤ) :
    Option (List (List ℚ) × Store) := do
  let tmid ← refGet d "trigger_mask"
  let trigger_mask ← tensorBools (storeGet σ tmid)
  let pmid ← refGet (refRemove d "trigger_mask") "predict_mask"
  let predict_mask ← tensorBools (storeGet σ pmid)
  let ltmid ← refGet (refRemove (refRemove d "trigger_mask") "predict_mask")
    "last_trigger_mask"
  let last_trigger_mask ← tensorBools (storeGet σ ltmid)
  let lmty ← assocGet LM_TYPE name_or_path
  let p ← replaceTriggerTokensStore σ
    (refRemove (refRemove (refRemove d "trigger_mask") "predict_mask")
      "last_trigger_mask") trigger_ids trigger_mask
  let d5 := if strContains name_or_path "t5" = true then
      (match refGet p.1 "input_ids" with
       | some nid => refSet p.1 "labels" nid
       | none => p.1)
    else p.1
  let pmEff := if lmty = "causal" then last_trigger_mask else predict_mask
  some (predictLogitsView (model p.2 d5) pmEff,
    p.2 ++ [Tensor.rats (predictLogitsView (model p.2 d5) pmEff)])

theorem storeGet_extend (σ : Store) (ext : List Tensor) (i : ℕ)
    (h : i < σ.length) : storeGet (σ ++ ext) i = storeGet σ i := by
  rw [storeGet, storeGet, List.getD_append _ _ _ _ h]

theorem replaceStore_extends (σ : Store) (d : RefDict) (trigger_ids : List ℤ)
    (trigger_mask : List (List Bool)) (out : RefDict) (σ' : Store)
    (h : replaceTriggerTokensStore σ d trigger_ids trigger_mask
      = some (out, σ')) : ∃ t, σ' = σ ++ [t] := by
  rcases hix : refGet d "input_ids" with _ | iid
  · simp only [replaceTriggerTokensStore, hix] at h
    exact Option.noConfusion h
  · simp only [replaceTriggerTokensStore, hix] at h
    rcases hT : storeGet σ iid with ids | bs | rs
    · simp only [hT] at h
      exact ⟨_, ((Prod.ext_iff.mp (Option.some.inj h)).2).symm⟩
    · simp only [hT] at h
      exact Option.noConfusion h
    · simp only [hT] at h
      exact Option.noConfusion h

/-- C10: neither `replace_trigger_tokens` nor `PredictWrapper.__call__`
mutates the caller's model-inputs dictionary or any tensor it holds: both work
on a dict copy and allocate only fresh tensors, so after a successful call the
store is merely extended — every pre-existing tensor id (in particular every
tensor the caller's dict references, its `input_ids` and the three masks
included) still dereferences to its original value, and the caller's dict
itself is never rebound. -/
theorem no_mutation_spec (σ : Store) (d : RefDict) (trigger_ids : List ℤ)
    (trigger_mask : List (List Bool)) (name_or_path : String)
    (model : Store → RefDict → List (List (List ℚ))) :
    (∀ out σ', replaceTriggerTokensStore σ d trigger_ids trigger_mask
        = some (out, σ') →
      σ.length ≤ σ'.length ∧
      (∀ i, i < σ.length → storeGet σ' i = storeGet σ i) ∧
      (∀ k id, refGet d k = some id → id < σ.length →
        storeGet σ' id = storeGet σ id)) ∧
    (∀ res σ', predictWrapperCallStore name_or_path model σ d trigger_ids
        = some (res, σ') →
      σ.length ≤ σ'.length ∧
      (∀ i, i < σ.length → storeGet σ' i = storeGet σ i) ∧
      (∀ k id, refGet d k = some id → id < σ.length →
        storeGet σ' id = storeGet σ id)) := by
  constructor
  · intro out σ' h
    obtain ⟨t, ht⟩ := replaceStore_extends σ d trigger_ids trigger_mask out σ' h
    subst ht
    refine ⟨by simp, fun i hi => storeGet_extend σ [t] i hi,
      fun k id _ hid => storeGet_extend σ [t] id hid⟩
  · intro res σ' h
    rw [predictWrapperCallStore] at h
    simp only [bind, Option.bind_eq_some] at h
    obtain ⟨tmid, -, tm, -, pmid, -, pm, -, ltmid, -, ltm, -, lmty, -, p,
      hrep, hfin⟩ := h
    obtain ⟨t1, ht1⟩ := replaceStore_extends σ _ trigger_ids tm p.1 p.2
      (by rw [← hrep])
    have hσ' : σ' = p.2 ++ [Tensor.rats (predictLogitsView
        (model p.2 (if strContains name_or_path "t5" = true then
          (match refGet p.1 "input_ids" with
           | some nid => refSet p.1 "labels" nid
           | none => p.1)
         else p.1))
        (if lmty = "causal" then ltm else pm))] :=
      ((Prod.ext_iff.mp (Option.some.inj hfin)).2).symm
    rw [hσ', ht1, List.append_assoc]
    refine ⟨by simp, fun i hi => storeGet_extend σ _ i hi,
      fun k id _ hid => storeGet_extend σ _ id hid⟩

theorem no_mutation_spec_witness :
    (replaceTriggerTokensStore [Tensor.ints [[5]], Tensor.bools [[false]]]
        [("input_ids", 0), ("trigger_mask", 1)] [] [[false]]
      = some ([("input_ids", 2), ("trigger_mask", 1)],
          [Tensor.ints [[5]], Tensor.bools [[false]], Tensor.ints [[5]]])) ∧
    storeGet [Tensor.ints [[5]], Tensor.bools [[false]], Tensor.ints [[5]]] 0
      = storeGet [Tensor.ints [[5]], Tensor.bools [[false]]] 0 :=
  ⟨by decide,
    ((no_mutation_spec [Tensor.ints [[5]], Tensor.bools [[false]]]
        [("input_ids", 0), ("trigger_mask", 1)] [] [[false]]
        "roberta-base" (fun _ _ => [])).1
      [("input_ids", 2), ("trigger_mask", 1)]
      [Tensor.ints [[5]], Tensor.bools [[false]], Tensor.ints [[5]]]
      (by decide)).2.2 "input_ids" 0 (by decide) (by decide)⟩

end AutoPrompt
